import Mathlib

/-!
Verification of the Connect-4 game-tree search core (`Connect4/connect4.py`).

The file embeds, as executable Lean definitions:
  * the `Board` state abstraction (the Python `Board` class is not part of the
    sources; it is modelled from the spec, see the doc comments below);
  * `get_child_boards`, `evaluate`, `minimax`, `alphabeta`, `expectimax`,
    translated from `connect4.py`;
and proves the spec's claims about them.

Python floats only ever hold `-inf`, `+inf`, `nan` or exact values produced by
integer arithmetic and division by a successor count here, so scores are
embedded as an extended-rational type `Score`.
-/

set_option maxHeartbeats 1000000

/-- Integer flag for an empty slot (`b.EMPTY_SLOT`). -/
def EMPTY_SLOT : Int := 0
/-- Integer flag for player 1 (`b.PLAYER1`). -/
def PLAYER1 : Int := 1
/-- Integer flag for player 2 (`b.PLAYER2`). -/
def PLAYER2 : Int := 2

/-- The documented domain of the `player` arguments: `board.PLAYER1` or
`board.PLAYER2`.  The source passes the integer flags around; the search
functions are specified only for these two values. -/
inductive Player where
  | P1
  | P2
deriving DecidableEq, Repr

/-- The integer flag a `Player` stands for. -/
def Player.toInt : Player → Int
  | .P1 => PLAYER1
  | .P2 => PLAYER2

/-- `board.PLAYER2 if p == board.PLAYER1 else board.PLAYER1`, the idiom the
source uses to switch turns, restricted to the documented player domain. -/
def opponent : Player → Player
  | .P1 => .P2
  | .P2 => .P1

/-- `board.PLAYER2 if player == board.PLAYER1 else board.PLAYER1` on raw
integer flags, as written inside `evaluate`. -/
def pyAdv (player : Int) : Int :=
  if player = PLAYER1 then PLAYER2 else PLAYER1

/-- Modelled from the spec: the `Board` class of the repository is not under
`src/` (only its docstring interface is).  Per the spec's data model it is a
`rows × cols` grid of slot values, row `0` being the bottom row. -/
structure Board where
  rows : Nat
  cols : Nat
  grid : Nat → Nat → Int

/-- Modelled from the spec: `b.get(row, col)`. -/
def Board.get (b : Board) (r c : Nat) : Int := b.grid r c

/-- Modelled from the spec: `b.row(r)`, the row as a sequence left-to-right. -/
def Board.row (b : Board) (r : Nat) : List Int :=
  (List.range b.cols).map (b.grid r)

/-- Modelled from the spec: `b.col(c)`, the column as a sequence bottom-to-top. -/
def Board.col (b : Board) (c : Nat) : List Int :=
  (List.range b.rows).map (fun r => b.grid r c)

/-- Modelled from the spec: `b.placeable(col)` is true iff the column has an
EMPTY cell, i.e. its topmost row is EMPTY. -/
def Board.placeable (b : Board) (c : Nat) : Bool :=
  decide (0 < b.rows) && (b.grid (b.rows - 1) c == EMPTY_SLOT)

/-- The lowest EMPTY row of a column, the row `b.place` fills. -/
def Board.lowestEmpty (b : Board) (c : Nat) : Option Nat :=
  (List.range b.rows).find? (fun r => b.grid r c == EMPTY_SLOT)

/-- Modelled from the spec: `b.place(player, col)` finds the lowest EMPTY row
in `col` and sets it to `player`.  When the column is full the source raises
`ValueError`; its callers always check `placeable` first, so that branch is
modelled as returning the board unchanged. -/
def Board.place (b : Board) (player : Int) (c : Nat) : Board :=
  match b.lowestEmpty c with
  | some r => { b with grid := fun r2 c2 => if r2 = r && c2 = c then player else b.grid r2 c2 }
  | none => b

/-- Modelled from the spec: `b.clone()` yields an independent copy with the
same disc placement; in this pure embedding the value itself. -/
def Board.clone (b : Board) : Board := b

/-- All cells of the grid occupied (used by `has_draw`). -/
def Board.full (b : Board) : Bool :=
  (List.range b.rows).all fun r => (List.range b.cols).all fun c => b.grid r c != EMPTY_SLOT

/-- A 4-cell segment won by one player: four equal non-EMPTY values. -/
def segWinner (s : List Int) : Option Int :=
  match s with
  | v :: rest => if v ≠ EMPTY_SLOT ∧ rest.all (· == v) then some v else none
  | [] => none

/-- Modelled from the spec: all valid 4-length line segments of the board —
horizontal, vertical and both diagonal families — used by `who_wins`. -/
def Board.lineSegments (b : Board) : List (List Int) :=
  ((List.range b.rows).flatMap fun r =>
    (List.range (b.cols - 3)).map fun c =>
      (List.range 4).map fun i => b.grid r (c + i)) ++
  ((List.range b.cols).flatMap fun c =>
    (List.range (b.rows - 3)).map fun r =>
      (List.range 4).map fun i => b.grid (r + i) c) ++
  ((List.range (b.rows - 3)).flatMap fun r =>
    (List.range (b.cols - 3)).map fun c =>
      (List.range 4).map fun i => b.grid (r + i) (c + i)) ++
  ((List.range (b.rows - 3)).flatMap fun r =>
    (List.range (b.cols - 3)).map fun c =>
      (List.range 4).map fun i => b.grid (r + i) (c + 3 - i))

/-- Modelled from the spec: `b.who_wins()` scans all valid 4-length segments
for four equal non-EMPTY values and returns the first winner in scan order,
or `none`. -/
def Board.who_wins (b : Board) : Option Int :=
  (b.lineSegments).findSome? segWinner

/-- Modelled from the spec: `b.has_draw()` — every cell occupied and no winner. -/
def Board.has_draw (b : Board) : Bool :=
  b.full && b.who_wins.isNone

/-- Modelled from the spec: `b.terminal()` — a draw or someone wins. -/
def Board.terminal (b : Board) : Bool :=
  b.has_draw || b.who_wins.isSome

/-- Number of EMPTY cells of the grid (the measure that makes the searches
terminate: every placement fills one EMPTY cell). -/
def Board.empties (b : Board) : Nat :=
  ((List.range b.rows).map fun r =>
    ((List.range b.cols).filter fun c => b.grid r c == EMPTY_SLOT).length).sum

/--
`get_child_boards(player, board)` from `connect4.py`: the `(col, new_board)`
pairs for every placeable column, in increasing column order, each new board
obtained by cloning and placing one disc.
-/
def get_child_boards (player : Int) (board : Board) : List (Nat × Board) :=
  (List.range board.cols).filterMap fun c =>
    if board.placeable c then some (c, (board.clone).place player c) else none

/-- The loop of `get_child_boards` with the state of the argument `board`
object threaded explicitly (the Python loop reads `board` and mutates only the
fresh clone `tmp_board`); the second component is the state of `board` after
the call. -/
def get_child_boards_run (player : Int) (board : Board) : List (Nat × Board) × Board :=
  (List.range board.cols).foldl
    (fun st c =>
      if st.2.placeable c then (st.1 ++ [(c, (st.2.clone).place player c)], st.2)
      else (st.1, st.2))
    ([], board)

/- ## The evaluator (`evaluate` in `connect4.py`) -/

/-- The weight schedule `[0, 1, 4, 16, 1000]` of `evaluate`. -/
def weights : List Int := [0, 1, 4, 16, 1000]

/-- `weights[k]` (every tallied count is at most 4). -/
def weight (k : Nat) : Int := weights.getD k 0

/-- Python's `zip(*rows)` on equally long rows: the transposed columns,
truncated at the shortest row. -/
def pyzip {α : Type} [Inhabited α] (ls : List (List α)) : List (List α) :=
  match (ls.map List.length).min? with
  | none => []
  | some n => (List.range n).map fun i => ls.map fun l => l.getD i default

/-- The list `seg` of all 4-slot windows built by `evaluate`: horizontal and
vertical slices of rows and columns, plus slices of the columns of the two
`invalid_slot`-padded ("revolved") row matrices, which yield the diagonals.
Windows reaching into the padding contain the flag `-1` and are skipped by the
scoring loop. -/
def segments (b : Board) : List (List Int) :=
  let invalid_slot : Int := -1
  let left_revolved := (List.range b.rows).map fun r =>
    List.replicate r invalid_slot ++ b.row r ++ List.replicate (b.rows - 1 - r) invalid_slot
  let right_revolved := (List.range b.rows).map fun r =>
    List.replicate (b.rows - 1 - r) invalid_slot ++ b.row r ++ List.replicate r invalid_slot
  ((List.range b.rows).flatMap fun r =>
    (List.range (b.cols - 3)).map fun c => ((b.row r).drop c).take 4) ++
  ((List.range b.cols).flatMap fun c =>
    (List.range (b.rows - 3)).map fun r => ((b.col c).drop r).take 4) ++
  ((pyzip left_revolved).flatMap fun c =>
    (List.range (b.rows - 3)).map fun r => ((c.drop r).take 4)) ++
  ((pyzip right_revolved).flatMap fun c =>
    (List.range (b.rows - 3)).map fun r => ((c.drop r).take 4))

/-- One step of the scoring loop of `evaluate`: segments containing the
invalid flag are skipped; a segment with no adversary disc bumps the player
bucket of its player count, a segment with no player disc bumps the adversary
bucket of its adversary count. -/
def tally (player adversary : Int) (sc : List Int × List Int) (s : List Int) :
    List Int × List Int :=
  if (-1 : Int) ∈ s then sc
  else
    ⟨if adversary ∈ s then sc.1 else sc.1.set (s.count player) (sc.1.getD (s.count player) 0 + 1),
     if player ∈ s then sc.2 else sc.2.set (s.count adversary) (sc.2.getD (s.count adversary) 0 + 1)⟩

/-- `sum([s*w for s, w in zip(score, weights)])`. -/
def dotW (l : List Int) : Int :=
  ((l.zip weights).map fun x => x.1 * x.2).sum

/-- `evaluate(player, board)` from `connect4.py`. -/
def evaluate (player : Int) (board : Board) : Int :=
  let adversary := pyAdv player
  let final := (segments board).foldl (tally player adversary)
    (List.replicate 5 0, List.replicate 5 0)
  dotW final.1 - dotW final.2

/- ## Scores: the Python floats used by the searches -/

/-- The float values the searches manipulate: `-math.inf`, `math.inf`,
exact numbers, and `nan` (which floats produce from `inf + (-inf)` at an
expectation node). -/
inductive Score where
  | negInf
  | posInf
  | nan
  | val (q : ℚ)
deriving DecidableEq, Repr

/-- Python `<` on these floats; any comparison with `nan` is false. -/
def Score.lt : Score → Score → Bool
  | .nan, _ => false
  | _, .nan => false
  | .negInf, .negInf => false
  | .negInf, _ => true
  | _, .negInf => false
  | .posInf, _ => false
  | .val _, .posInf => true
  | .val a, .val b => decide (a < b)

/-- Python `<=` on these floats; any comparison with `nan` is false. -/
def Score.le : Score → Score → Bool
  | .nan, _ => false
  | _, .nan => false
  | .negInf, _ => true
  | _, .negInf => false
  | _, .posInf => true
  | .posInf, _ => false
  | .val a, .val b => decide (a ≤ b)

/-- Python `max(a, b)`: `b` if `a < b` else `a`. -/
def Score.pmax (a b : Score) : Score := if Score.lt a b then b else a

/-- Python `min(a, b)`: `b` if `b < a` else `a`. -/
def Score.pmin (a b : Score) : Score := if Score.lt b a then b else a

/-- Float addition restricted to these values (`inf + (-inf)` is `nan`). -/
def Score.add : Score → Score → Score
  | .nan, _ => .nan
  | _, .nan => .nan
  | .posInf, .negInf => .nan
  | .negInf, .posInf => .nan
  | .posInf, _ => .posInf
  | _, .posInf => .posInf
  | .negInf, _ => .negInf
  | _, .negInf => .negInf
  | .val a, .val b => .val (a + b)

/-- Multiplication by a positive rational probability (`prob = 1/len > 0`
in the source, so infinities keep their sign). -/
def Score.smul (q : ℚ) : Score → Score
  | .nan => .nan
  | .posInf => .posInf
  | .negInf => .negInf
  | .val a => .val (q * a)

/- ## Minimax (`minimax` in `connect4.py`) -/

/--
The recursive `value`/`max_value`/`min_value` closure of `minimax`, with the
captured maximizing player made an explicit parameter.  The Python recursion
terminates because every ply fills one EMPTY cell until the board is full
(hence terminal); the embedding carries that measure as explicit fuel, spent
one unit per ply, and the entry points supply `board.empties`, which is never
exhausted (a board with `0` empties is full, hence terminal).  A max node
folds `if score > max_score` over the successors starting from `-inf`, a min
node `if score < min_score` starting from `inf`.
-/
def mmValue (maxP : Player) : Nat → Player → Board → Int → Score
  | 0, _, b, _ => Score.val (evaluate maxP.toInt b)
  | fuel + 1, cur, b, depth =>
    if b.terminal = true ∨ depth = 0 then Score.val (evaluate maxP.toInt b)
    else if cur = maxP then
      (get_child_boards cur.toInt b).foldl
        (fun ms x =>
          let score := mmValue maxP fuel (opponent cur) x.2 (depth - 1)
          if Score.lt ms score then score else ms)
        Score.negInf
    else
      (get_child_boards cur.toInt b).foldl
        (fun ms x =>
          let score := mmValue maxP fuel (opponent cur) x.2 (depth - 1)
          if Score.lt score ms then score else ms)
        Score.posInf

/-- The top-level loop of `minimax`: `(placement, best_score)` after folding
`if score > best_score` over the immediate successors. -/
def minimax_run (player : Player) (board : Board) (depth_limit : Int) :
    Option Nat × Score :=
  (get_child_boards player.toInt board).foldl
    (fun st x =>
      let score := mmValue player board.empties (opponent player) x.2 (depth_limit - 1)
      if Score.lt st.2 score then (some x.1, score) else st)
    (none, Score.negInf)

/-- `minimax(player, board, depth_limit)` from `connect4.py`: the chosen
column, `none` to give up the game. -/
def minimax (player : Player) (board : Board) (depth_limit : Int) : Option Nat :=
  (minimax_run player board depth_limit).1

/- ## Alpha-beta (`alphabeta` in `connect4.py`) -/

/-- The `for` loop of alpha-beta's `max_value`: score each successor with the
current window, keep the running maximum, return it as soon as it reaches
`beta`, otherwise raise `alpha` to it. -/
def abMaxLoop (f : Board → Score → Score → Score) :
    List (Nat × Board) → Score → Score → Score → Score
  | [], maxScore, _, _ => maxScore
  | x :: rest, maxScore, alpha, beta =>
    let score := f x.2 alpha beta
    let ms := Score.pmax maxScore score
    if Score.le beta ms then ms
    else abMaxLoop f rest ms (Score.pmax alpha ms) beta

/-- The `for` loop of alpha-beta's `min_value`: dual to `abMaxLoop`. -/
def abMinLoop (f : Board → Score → Score → Score) :
    List (Nat × Board) → Score → Score → Score → Score
  | [], minScore, _, _ => minScore
  | x :: rest, minScore, alpha, beta =>
    let score := f x.2 alpha beta
    let ms := Score.pmin minScore score
    if Score.le ms alpha then ms
    else abMinLoop f rest ms alpha (Score.pmin beta ms)

/-- The recursive `value` closure of `alphabeta`, with the window `(alpha,
beta)` threaded as in the source and the same fuel discipline as `mmValue`. -/
def abValue (maxP : Player) : Nat → Player → Board → Int → Score → Score → Score
  | 0, _, b, _, _, _ => Score.val (evaluate maxP.toInt b)
  | fuel + 1, cur, b, depth, alpha, beta =>
    if b.terminal = true ∨ depth = 0 then Score.val (evaluate maxP.toInt b)
    else if cur = maxP then
      abMaxLoop (fun b2 a2 b3 => abValue maxP fuel (opponent cur) b2 (depth - 1) a2 b3)
        (get_child_boards cur.toInt b) Score.negInf alpha beta
    else
      abMinLoop (fun b2 a2 b3 => abValue maxP fuel (opponent cur) b2 (depth - 1) a2 b3)
        (get_child_boards cur.toInt b) Score.posInf alpha beta

/-- The top-level loop of `alphabeta`: state `(placement, best_score, alpha)`;
each successor is scored with window `(alpha, +inf)` and `alpha` is raised to
the running best after each successor. -/
def alphabeta_run (player : Player) (board : Board) (depth_limit : Int) :
    Option Nat × Score × Score :=
  (get_child_boards player.toInt board).foldl
    (fun st x =>
      let score := abValue player board.empties (opponent player) x.2 (depth_limit - 1)
        st.2.2 Score.posInf
      let next := if Score.lt st.2.1 score then (some x.1, score) else (st.1, st.2.1)
      (next.1, next.2, Score.pmax st.2.2 next.2))
    (none, Score.negInf, Score.negInf)

/-- `alphabeta(player, board, depth_limit)` from `connect4.py`. -/
def alphabeta (player : Player) (board : Board) (depth_limit : Int) : Option Nat :=
  (alphabeta_run player board depth_limit).1

/- ## Expectimax (`expectimax` in `connect4.py`) -/

/--
The recursive `value`/`max_value`/`expected_value` closure of `expectimax`.
`expected_value` computes `prob = 1 / len(child_boards)` before its loop, so
an adversary node with no successors raises `ZeroDivisionError`; the embedding
returns `none` for a raised exception, which propagates.  Otherwise the node
accumulates `total_value += prob * value(...)` over all successors.
-/
def emValue (maxP : Player) : Nat → Player → Board → Int → Option Score
  | 0, _, b, _ => some (Score.val (evaluate maxP.toInt b))
  | fuel + 1, cur, b, depth =>
    if b.terminal = true ∨ depth = 0 then some (Score.val (evaluate maxP.toInt b))
    else if cur = maxP then
      (get_child_boards cur.toInt b).foldl
        (fun ms x =>
          match ms, emValue maxP fuel (opponent cur) x.2 (depth - 1) with
          | some m, some s => some (Score.pmax m s)
          | _, _ => none)
        (some Score.negInf)
    else
      let child_boards := get_child_boards cur.toInt b
      if child_boards.length = 0 then none
      else
        let prob : ℚ := 1 / (child_boards.length : ℚ)
        child_boards.foldl
          (fun tv x =>
            match tv, emValue maxP fuel (opponent cur) x.2 (depth - 1) with
            | some t, some s => some (Score.add t (Score.smul prob s))
            | _, _ => none)
          (some (Score.val 0))

/-- The top-level loop of `expectimax`; the outer `Option` is a propagated
`ZeroDivisionError` from an adversary node with no successors. -/
def expectimax_run (player : Player) (board : Board) (depth_limit : Int) :
    Option (Option Nat × Score) :=
  (get_child_boards player.toInt board).foldl
    (fun st x =>
      match st, emValue player board.empties (opponent player) x.2 (depth_limit - 1) with
      | some st2, some score =>
          if Score.lt st2.2 score then some (some x.1, score) else some st2
      | _, _ => none)
    (some (none, Score.negInf))

/-- `expectimax(player, board, depth_limit)` from `connect4.py`; `some`
placement on normal return, `none` when the search raised. -/
def expectimax (player : Player) (board : Board) (depth_limit : Int) :
    Option (Option Nat) :=
  (expectimax_run player board depth_limit).map Prod.fst

/- ## Data-model invariants (spec §3) -/

/-- The spec's gravity invariant: an occupied cell has every cell below it in
the same column occupied (equivalently, above an EMPTY cell everything is
EMPTY). -/
def Gravity (b : Board) : Prop :=
  ∀ c < b.cols, ∀ r < b.rows - 1,
    b.grid (r + 1) c ≠ EMPTY_SLOT → b.grid r c ≠ EMPTY_SLOT

/-- The spec's slot-value discipline: every cell holds EMPTY, PLAYER1 or
PLAYER2. -/
def SlotsValid (b : Board) : Prop :=
  ∀ r < b.rows, ∀ c < b.cols,
    b.grid r c = EMPTY_SLOT ∨ b.grid r c = PLAYER1 ∨ b.grid r c = PLAYER2

instance (b : Board) : Decidable (Gravity b) := by
  unfold Gravity
  infer_instance

instance (b : Board) : Decidable (SlotsValid b) := by
  unfold SlotsValid
  infer_instance

/- ## Board-level lemmas -/

lemma find?_range_first {n : Nat} {p : Nat → Bool} {r : Nat}
    (h : (List.range n).find? p = some r) :
    r < n ∧ p r = true ∧ ∀ i < r, p i = false := by
  have hmem := List.mem_of_find?_eq_some h
  have hr : r < n := List.mem_range.mp hmem
  refine ⟨hr, List.find?_some h, ?_⟩
  rcases List.find?_eq_some.mp h with ⟨-, as, bs, heq, hall⟩
  have hgetr : (as ++ r :: bs)[as.length]? = some r := by
    rw [List.getElem?_append_right (Nat.le_refl _)]
    simp
  rw [← heq] at hgetr
  have hlen : as.length < n := by
    have := congrArg List.length heq
    simp only [List.length_range, List.length_append, List.length_cons] at this
    omega
  have hras : r = as.length := by
    rw [List.getElem?_range hlen] at hgetr
    exact (Option.some_inj.mp hgetr).symm
  intro i hi
  have : i ∈ as := by
    have : as = List.range r := by
      have h1 : (List.range n).take as.length = as := by
        rw [heq]; exact List.take_left as (r :: bs)
      rw [← hras] at h1
      rw [← h1, List.take_range, Nat.min_eq_left (Nat.le_of_lt hr)]
    rw [this]; exact List.mem_range.mpr hi
  simpa using hall i this

lemma mem_get_child_boards {p : Int} {b : Board} {x : Nat × Board} :
    x ∈ get_child_boards p b ↔
      x.1 < b.cols ∧ b.placeable x.1 = true ∧ x.2 = b.place p x.1 := by
  simp only [get_child_boards, List.mem_filterMap, List.mem_range, Board.clone]
  constructor
  · rintro ⟨c, hc, hx⟩
    by_cases hpl : b.placeable c = true
    · rw [if_pos hpl] at hx
      have hx2 : (c, b.place p c) = x := Option.some_inj.mp hx
      subst hx2
      exact ⟨hc, hpl, rfl⟩
    · rw [if_neg hpl] at hx; cases hx
  · rintro ⟨hc, hpl, hx⟩
    exact ⟨x.1, hc, by rw [if_pos hpl, ← hx]⟩

lemma placeable_lowestEmpty {b : Board} {c : Nat} (h : b.placeable c = true) :
    ∃ r, b.lowestEmpty c = some r ∧ r < b.rows ∧ b.grid r c = EMPTY_SLOT ∧
      ∀ i < r, b.grid i c ≠ EMPTY_SLOT := by
  simp only [Board.placeable, Bool.and_eq_true, decide_eq_true_eq, beq_iff_eq] at h
  obtain ⟨hrows, htop⟩ := h
  have hex : ∃ r ∈ List.range b.rows, (b.grid r c == EMPTY_SLOT) = true := by
    exact ⟨b.rows - 1, List.mem_range.mpr (by omega), beq_iff_eq.mpr htop⟩
  obtain ⟨r, hfind⟩ := List.find?_isSome.mpr hex |> Option.isSome_iff_exists.mp
  obtain ⟨hr, hp, hfirst⟩ := find?_range_first hfind
  exact ⟨r, hfind, hr, beq_iff_eq.mp hp, fun i hi =>
    by simpa using hfirst i hi⟩

lemma place_dims (b : Board) (p : Int) (c : Nat) :
    (b.place p c).rows = b.rows ∧ (b.place p c).cols = b.cols := by
  unfold Board.place
  cases b.lowestEmpty c <;> simp

lemma place_grid {b : Board} {c r0 : Nat} (h : b.lowestEmpty c = some r0) (p : Int) :
    ∀ r2 c2, (b.place p c).grid r2 c2 =
      if r2 = r0 ∧ c2 = c then p else b.grid r2 c2 := by
  intro r2 c2
  simp only [Board.place, h]
  by_cases h1 : r2 = r0 <;> by_cases h2 : c2 = c <;> simp [h1, h2]

/-- Placing a disc other than the EMPTY flag preserves the gravity invariant. -/
lemma gravity_place {b : Board} (hg : Gravity b) {p : Int} (hp : p ≠ EMPTY_SLOT)
    {c : Nat} (hpl : b.placeable c = true) : Gravity (b.place p c) := by
  obtain ⟨r0, hle, hr0, hempty, hfirst⟩ := placeable_lowestEmpty hpl
  intro c2 hc2 r hr hocc
  rw [(place_dims b p c).2] at hc2
  rw [(place_dims b p c).1] at hr
  rw [place_grid hle] at hocc ⊢
  by_cases heq : c2 = c
  · subst heq
    by_cases h1 : r = r0
    · subst h1; simp [hp]
    · rw [if_neg (by tauto)]
      by_cases h2 : r + 1 = r0
      · -- the cell just below the filled one: all cells below `r0` are occupied
        exact hfirst r (by omega)
      · rw [if_neg (by tauto)] at hocc
        exact hg c2 hc2 r hr hocc
  · rw [if_neg (by tauto)] at hocc
    rw [if_neg (by tauto)]
    exact hg c2 hc2 r hr hocc

lemma gravity_children {b : Board} (hg : Gravity b) {p : Int} (hp : p ≠ EMPTY_SLOT)
    {x : Nat × Board} (hx : x ∈ get_child_boards p b) : Gravity x.2 := by
  obtain ⟨-, hpl, hx2⟩ := mem_get_child_boards.mp hx
  rw [hx2]; exact gravity_place hg hp hpl

lemma Player.toInt_ne_empty (p : Player) : p.toInt ≠ EMPTY_SLOT := by
  cases p <;> simp [Player.toInt, PLAYER1, PLAYER2, EMPTY_SLOT]

/-- On a gravity board with no placeable column every cell is occupied. -/
lemma full_of_no_placeable {b : Board} (hg : Gravity b)
    (h : ∀ c < b.cols, b.placeable c = false) : b.full = true := by
  simp only [Board.full, List.all_eq_true, List.mem_range, bne_iff_ne, ne_eq]
  intro r hr c hc
  -- downward induction from the top cell, which is occupied since not placeable
  have htop : b.grid (b.rows - 1) c ≠ EMPTY_SLOT := by
    have := h c hc
    simp only [Board.placeable, Bool.and_eq_false_iff, decide_eq_false_iff_not,
      Nat.not_lt, beq_eq_false_iff_ne, ne_eq] at this
    rcases this with h0 | h0
    · omega
    · exact h0
  have key : ∀ k, k < b.rows → b.grid (b.rows - 1 - k) c ≠ EMPTY_SLOT := by
    intro k
    induction k with
    | zero => intro _; simpa using htop
    | succ n ih =>
      intro hn
      have hnlt : n < b.rows := by omega
      have hprev := ih hnlt
      have harg : b.rows - 1 - (n + 1) + 1 = b.rows - 1 - n := by omega
      have := hg c hc (b.rows - 1 - (n + 1)) (by omega)
      rw [harg] at this
      exact this hprev
  have := key (b.rows - 1 - r) (by omega)
  have harg : b.rows - 1 - (b.rows - 1 - r) = r := by omega
  rw [harg] at this
  exact fun hcontr => this hcontr

lemma terminal_of_full {b : Board} (h : b.full = true) : b.terminal = true := by
  simp only [Board.terminal, Board.has_draw, h, Bool.true_and, Bool.or_eq_true]
  cases hw : b.who_wins <;> simp [Option.isNone, Option.isSome, hw]

/-- On a gravity board, a non-terminal position always has a successor. -/
lemma children_ne_nil {b : Board} (hg : Gravity b) (ht : b.terminal = false)
    (p : Int) : get_child_boards p b ≠ [] := by
  intro hnil
  have hnopl : ∀ c < b.cols, b.placeable c = false := by
    intro c hc
    by_contra hcon
    have hpl : b.placeable c = true := by
      cases h : b.placeable c
      · exact absurd h hcon
      · rfl
    have : (c, b.place p c) ∈ get_child_boards p b :=
      mem_get_child_boards.mpr ⟨hc, hpl, rfl⟩
    rw [hnil] at this
    cases this
  have := terminal_of_full (full_of_no_placeable hg hnopl)
  rw [ht] at this
  cases this

/- ## Score-order lemmas

`Score` values other than `nan` are linearly ordered; `toE` embeds them into
`WithBot (WithTop ℚ)` to reuse Mathlib's lattice lemmas.  The searches never
produce `nan` (proved below), so all order reasoning happens on that image. -/

/-- The extended rationals, the order the non-`nan` scores live in. -/
abbrev ERat2 := WithBot (WithTop ℚ)

/-- Embedding of the non-`nan` scores into the extended rationals (`nan` is
mapped to an arbitrary value and always excluded by hypotheses). -/
def Score.toE : Score → ERat2
  | .negInf => ⊥
  | .posInf => ((⊤ : WithTop ℚ) : ERat2)
  | .val q => (((q : ℚ) : WithTop ℚ) : ERat2)
  | .nan => ⊥

lemma Score.toE_inj {a b : Score} (ha : a ≠ .nan) (hb : b ≠ .nan)
    (h : a.toE = b.toE) : a = b := by
  cases a <;> cases b <;> simp_all [Score.toE]

lemma Score.lt_iff {a b : Score} (ha : a ≠ .nan) (hb : b ≠ .nan) :
    Score.lt a b = true ↔ a.toE < b.toE := by
  cases a <;> cases b <;>
    simp only [Score.lt, Score.toE, WithBot.coe_lt_coe] <;>
    simp_all [WithBot.bot_lt_coe, WithTop.coe_lt_top, WithTop.coe_lt_coe]

lemma Score.le_iff {a b : Score} (ha : a ≠ .nan) (hb : b ≠ .nan) :
    Score.le a b = true ↔ a.toE ≤ b.toE := by
  cases a <;> cases b <;>
    simp only [Score.le, Score.toE, WithBot.coe_le_coe] <;>
    simp_all [WithTop.coe_le_coe, bot_le, le_top, WithTop.coe_lt_top]

lemma Score.pmax_ne_nan {a b : Score} (ha : a ≠ .nan) (hb : b ≠ .nan) :
    Score.pmax a b ≠ .nan := by
  unfold Score.pmax
  split <;> assumption

lemma Score.pmin_ne_nan {a b : Score} (ha : a ≠ .nan) (hb : b ≠ .nan) :
    Score.pmin a b ≠ .nan := by
  unfold Score.pmin
  split <;> assumption

lemma Score.toE_pmax {a b : Score} (ha : a ≠ .nan) (hb : b ≠ .nan) :
    (Score.pmax a b).toE = max a.toE b.toE := by
  unfold Score.pmax
  by_cases h : Score.lt a b = true
  · rw [if_pos h, max_eq_right (le_of_lt ((Score.lt_iff ha hb).mp h))]
  · rw [if_neg h, max_eq_left]
    by_contra hcon
    exact h ((Score.lt_iff ha hb).mpr (lt_of_not_le hcon))

lemma Score.toE_pmin {a b : Score} (ha : a ≠ .nan) (hb : b ≠ .nan) :
    (Score.pmin a b).toE = min a.toE b.toE := by
  unfold Score.pmin
  by_cases h : Score.lt b a = true
  · rw [if_pos h, min_eq_right (le_of_lt ((Score.lt_iff hb ha).mp h))]
  · rw [if_neg h, min_eq_left]
    by_contra hcon
    exact h ((Score.lt_iff hb ha).mpr (lt_of_not_le hcon))

lemma Score.lt_eq_false_iff {a b : Score} (ha : a ≠ .nan) (hb : b ≠ .nan) :
    Score.lt a b = false ↔ b.toE ≤ a.toE := by
  rw [← not_lt, ← Score.lt_iff ha hb]
  cases h : Score.lt a b <;> simp

@[simp] lemma Score.toE_negInf : (Score.negInf).toE = ⊥ := rfl

@[simp] lemma Score.toE_posInf_top : (Score.posInf).toE = ((⊤ : WithTop ℚ) : ERat2) := rfl

lemma Score.toE_posInf_isTop (a : Score) : a.toE ≤ (Score.posInf).toE := by
  cases a <;> simp [Score.toE]

lemma Score.negInf_ne_nan : Score.negInf ≠ .nan := by simp
lemma Score.posInf_ne_nan : Score.posInf ≠ .nan := by simp
lemma Score.val_ne_nan (q : ℚ) : Score.val q ≠ .nan := by simp

/- ## The search recursions never produce `nan` -/

/-- Unfolding of `mmValue` at positive fuel, with the loop bodies written via
`Score.pmax`/`Score.pmin` (definitionally the `if score > max_score` updates). -/
lemma mmValue_succ (maxP : Player) (fuel : Nat) (cur : Player) (b : Board) (depth : Int) :
    mmValue maxP (fuel + 1) cur b depth =
      if b.terminal = true ∨ depth = 0 then Score.val (evaluate maxP.toInt b)
      else if cur = maxP then
        (get_child_boards cur.toInt b).foldl
          (fun ms x => Score.pmax ms (mmValue maxP fuel (opponent cur) x.2 (depth - 1)))
          Score.negInf
      else
        (get_child_boards cur.toInt b).foldl
          (fun ms x => Score.pmin ms (mmValue maxP fuel (opponent cur) x.2 (depth - 1)))
          Score.posInf := rfl

lemma foldl_pmax_ne_nan {α : Type} {v : α → Score} :
    ∀ (l : List α) (init : Score), init ≠ .nan → (∀ x ∈ l, v x ≠ .nan) →
      l.foldl (fun ms x => Score.pmax ms (v x)) init ≠ .nan := by
  intro l
  induction l with
  | nil => intro init hi _; simpa using hi
  | cons x rest ih =>
    intro init hi hv
    simpa using ih (Score.pmax init (v x))
      (Score.pmax_ne_nan hi (hv x (List.mem_cons_self x rest)))
      (fun y hy => hv y (List.mem_cons_of_mem x hy))

lemma foldl_pmin_ne_nan {α : Type} {v : α → Score} :
    ∀ (l : List α) (init : Score), init ≠ .nan → (∀ x ∈ l, v x ≠ .nan) →
      l.foldl (fun ms x => Score.pmin ms (v x)) init ≠ .nan := by
  intro l
  induction l with
  | nil => intro init hi _; simpa using hi
  | cons x rest ih =>
    intro init hi hv
    simpa using ih (Score.pmin init (v x))
      (Score.pmin_ne_nan hi (hv x (List.mem_cons_self x rest)))
      (fun y hy => hv y (List.mem_cons_of_mem x hy))

lemma mmValue_ne_nan (maxP : Player) :
    ∀ (fuel : Nat) (cur : Player) (b : Board) (depth : Int),
      mmValue maxP fuel cur b depth ≠ .nan := by
  intro fuel
  induction fuel with
  | zero => intro cur b depth; simp [mmValue]
  | succ n ih =>
    intro cur b depth
    rw [mmValue_succ]
    split
    · simp
    · split
      · exact foldl_pmax_ne_nan _ _ Score.negInf_ne_nan (fun x _ => ih _ _ _)
      · exact foldl_pmin_ne_nan _ _ Score.posInf_ne_nan (fun x _ => ih _ _ _)

lemma abMaxLoop_ne_nan {f : Board → Score → Score → Score} :
    ∀ (l : List (Nat × Board)) (ms alpha beta : Score), ms ≠ .nan →
      (∀ x ∈ l, ∀ a2 b2, f x.2 a2 b2 ≠ .nan) →
      abMaxLoop f l ms alpha beta ≠ .nan := by
  intro l
  induction l with
  | nil => intro ms alpha beta h _; simpa [abMaxLoop] using h
  | cons x rest ih =>
    intro ms alpha beta h hf
    rw [abMaxLoop]
    have hms2 : Score.pmax ms (f x.2 alpha beta) ≠ .nan :=
      Score.pmax_ne_nan h (hf x (List.mem_cons_self x rest) alpha beta)
    split
    · exact hms2
    · exact ih _ _ _ hms2 (fun y hy => hf y (List.mem_cons_of_mem x hy))

lemma abMinLoop_ne_nan {f : Board → Score → Score → Score} :
    ∀ (l : List (Nat × Board)) (ms alpha beta : Score), ms ≠ .nan →
      (∀ x ∈ l, ∀ a2 b2, f x.2 a2 b2 ≠ .nan) →
      abMinLoop f l ms alpha beta ≠ .nan := by
  intro l
  induction l with
  | nil => intro ms alpha beta h _; simpa [abMinLoop] using h
  | cons x rest ih =>
    intro ms alpha beta h hf
    rw [abMinLoop]
    have hms2 : Score.pmin ms (f x.2 alpha beta) ≠ .nan :=
      Score.pmin_ne_nan h (hf x (List.mem_cons_self x rest) alpha beta)
    split
    · exact hms2
    · exact ih _ _ _ hms2 (fun y hy => hf y (List.mem_cons_of_mem x hy))

lemma abValue_ne_nan (maxP : Player) :
    ∀ (fuel : Nat) (cur : Player) (b : Board) (depth : Int) (alpha beta : Score),
      abValue maxP fuel cur b depth alpha beta ≠ .nan := by
  intro fuel
  induction fuel with
  | zero => intro cur b depth alpha beta; simp [abValue]
  | succ n ih =>
    intro cur b depth alpha beta
    rw [abValue]
    split
    · simp
    · split
      · exact abMaxLoop_ne_nan _ _ _ _ Score.negInf_ne_nan (fun x _ a2 b2 => ih _ _ _ _ _)
      · exact abMinLoop_ne_nan _ _ _ _ Score.posInf_ne_nan (fun x _ a2 b2 => ih _ _ _ _ _)

/- ## Alpha-beta is a sound fail-soft search (towards claim C1) -/

lemma foldl_pmax_le_of_init {α : Type} {v : α → Score} {init : Score}
    (hi : init ≠ .nan) :
    ∀ {l : List α}, (∀ x ∈ l, v x ≠ .nan) →
      init.toE ≤ (l.foldl (fun acc x => Score.pmax acc (v x)) init).toE := by
  intro l
  induction l generalizing init with
  | nil => intro _; simp
  | cons x rest ih =>
    intro hv
    have hvx : v x ≠ .nan := hv x (List.mem_cons_self x rest)
    calc init.toE ≤ (Score.pmax init (v x)).toE := by
          rw [Score.toE_pmax hi hvx]; exact le_max_left _ _
    _ ≤ _ := by
          rw [List.foldl_cons]
          exact ih (Score.pmax_ne_nan hi hvx) (fun y hy => hv y (List.mem_cons_of_mem x hy))

lemma foldl_pmin_ge_of_init {α : Type} {v : α → Score} {init : Score}
    (hi : init ≠ .nan) :
    ∀ {l : List α}, (∀ x ∈ l, v x ≠ .nan) →
      (l.foldl (fun acc x => Score.pmin acc (v x)) init).toE ≤ init.toE := by
  intro l
  induction l generalizing init with
  | nil => intro _; simp
  | cons x rest ih =>
    intro hv
    have hvx : v x ≠ .nan := hv x (List.mem_cons_self x rest)
    calc (((x :: rest).foldl (fun acc x => Score.pmin acc (v x)) init)).toE
        ≤ (Score.pmin init (v x)).toE := by
          rw [List.foldl_cons]
          exact ih (Score.pmin_ne_nan hi hvx) (fun y hy => hv y (List.mem_cons_of_mem x hy))
    _ ≤ init.toE := by
          rw [Score.toE_pmin hi hvx]; exact min_le_left _ _

/--
Fail-soft invariant of the max-node loop: relative to the plain minimax fold
of the same successors, the loop result `A` never exceeds `max α₀ M` and never
falls below `min β M`, where `α₀`/`β` are the window at node entry and `M` the
minimax fold result.
-/
lemma abMaxLoop_bounds {f : Board → Score → Score → Score} {v : Nat × Board → Score}
    {alpha0 beta : Score} (ha0 : alpha0 ≠ .nan) (hb : beta ≠ .nan) :
    ∀ (l : List (Nat × Board)),
      (∀ x ∈ l, v x ≠ .nan) →
      (∀ x ∈ l, ∀ a2, a2 ≠ .nan → f x.2 a2 beta ≠ .nan ∧
        (f x.2 a2 beta).toE ≤ max a2.toE (v x).toE ∧
        min beta.toE (v x).toE ≤ (f x.2 a2 beta).toE) →
      ∀ (ms alpha m : Score), ms ≠ .nan → alpha ≠ .nan → m ≠ .nan →
      alpha.toE = max alpha0.toE ms.toE →
      ms.toE ≤ max alpha0.toE m.toE →
      min beta.toE m.toE ≤ ms.toE →
      (abMaxLoop f l ms alpha beta).toE ≤
          max alpha0.toE (l.foldl (fun acc x => Score.pmax acc (v x)) m).toE ∧
        min beta.toE (l.foldl (fun acc x => Score.pmax acc (v x)) m).toE ≤
          (abMaxLoop f l ms alpha beta).toE := by
  intro l
  induction l with
  | nil =>
    intro _ _ ms alpha m hms halpha hm _ h1 h2
    exact ⟨h1, h2⟩
  | cons x rest ih =>
    intro hv hf ms alpha m hms halpha hm ha h1 h2
    have hvx : v x ≠ .nan := hv x (List.mem_cons_self x rest)
    obtain ⟨hs_ne, hs_le, hs_ge⟩ := hf x (List.mem_cons_self x rest) alpha halpha
    set s := f x.2 alpha beta with hs_def
    have hms2 : Score.pmax ms s ≠ .nan := Score.pmax_ne_nan hms hs_ne
    have hm2 : Score.pmax m (v x) ≠ .nan := Score.pmax_ne_nan hm hvx
    have hms2E : (Score.pmax ms s).toE = max ms.toE s.toE := Score.toE_pmax hms hs_ne
    have hm2E : (Score.pmax m (v x)).toE = max m.toE (v x).toE := Score.toE_pmax hm hvx
    -- running max never exceeds `max α₀ m'`
    have hF1 : (Score.pmax ms s).toE ≤ max alpha0.toE (Score.pmax m (v x)).toE := by
      rw [hms2E, hm2E]
      have hsle2 : s.toE ≤ max alpha0.toE (max m.toE (v x).toE) := by
        calc s.toE ≤ max alpha.toE (v x).toE := hs_le
        _ ≤ max (max alpha0.toE m.toE) (v x).toE := by
            apply max_le_max_right
            rw [ha]
            exact max_le (le_max_left _ _) h1
        _ = max alpha0.toE (max m.toE (v x).toE) := max_assoc _ _ _
      have hmsle2 : ms.toE ≤ max alpha0.toE (max m.toE (v x).toE) :=
        le_trans h1 (by apply max_le_max_left; exact le_max_left _ _)
      exact max_le hmsle2 hsle2
    rw [abMaxLoop, List.foldl_cons]
    rw [← hs_def]
    split
    · -- beta cutoff: the loop returns the running max `pmax ms s` at once
      rename_i hcut
      have hcutE : beta.toE ≤ (Score.pmax ms s).toE := (Score.le_iff hb hms2).mp hcut
      constructor
      · -- bounded above through `α₀`/the final minimax fold
        refine le_trans hF1 ?_
        apply max_le_max_left
        -- the minimax fold only grows from `pmax m (v x)`
        exact foldl_pmax_le_of_init hm2 (fun y hy => hv y (List.mem_cons_of_mem x hy))
      · exact le_trans (min_le_left _ _) hcutE
    · rename_i hnotcut
      have hmsle : ms.toE ≤ (Score.pmax ms s).toE := by rw [hms2E]; exact le_max_left _ _
      have hsle3 : s.toE ≤ (Score.pmax ms s).toE := by rw [hms2E]; exact le_max_right _ _
      refine ih (fun y hy => hv y (List.mem_cons_of_mem x hy))
        (fun y hy => hf y (List.mem_cons_of_mem x hy)) _ _ _
        hms2 (Score.pmax_ne_nan halpha hms2) hm2 ?_ hF1 ?_
      · -- the raised alpha is `max α₀` of the new running max
        rw [Score.toE_pmax halpha hms2, ha, hms2E]
        rw [max_assoc]
        congr 1
        exact max_eq_right (le_max_left _ _)
      · -- `min β m'` stays below the new running max
        rw [hm2E, min_max_distrib_left]
        exact max_le (le_trans h2 hmsle) (le_trans hs_ge hsle3)

/-- Fail-soft invariant of the min-node loop, dual to `abMaxLoop_bounds`. -/
lemma abMinLoop_bounds {f : Board → Score → Score → Score} {v : Nat × Board → Score}
    {alpha beta0 : Score} (ha : alpha ≠ .nan) (hb0 : beta0 ≠ .nan) :
    ∀ (l : List (Nat × Board)),
      (∀ x ∈ l, v x ≠ .nan) →
      (∀ x ∈ l, ∀ b2, b2 ≠ .nan → f x.2 alpha b2 ≠ .nan ∧
        (f x.2 alpha b2).toE ≤ max alpha.toE (v x).toE ∧
        min b2.toE (v x).toE ≤ (f x.2 alpha b2).toE) →
      ∀ (ms beta m : Score), ms ≠ .nan → beta ≠ .nan → m ≠ .nan →
      beta.toE = min beta0.toE ms.toE →
      min beta0.toE m.toE ≤ ms.toE →
      ms.toE ≤ max alpha.toE m.toE →
      min beta0.toE (l.foldl (fun acc x => Score.pmin acc (v x)) m).toE ≤
          (abMinLoop f l ms alpha beta).toE ∧
        (abMinLoop f l ms alpha beta).toE ≤
          max alpha.toE (l.foldl (fun acc x => Score.pmin acc (v x)) m).toE := by
  intro l
  induction l with
  | nil =>
    intro _ _ ms beta m hms hbeta hm _ h1 h2
    exact ⟨h1, h2⟩
  | cons x rest ih =>
    intro hv hf ms beta m hms hbeta hm hbE h1 h2
    have hvx : v x ≠ .nan := hv x (List.mem_cons_self x rest)
    obtain ⟨hs_ne, hs_le, hs_ge⟩ := hf x (List.mem_cons_self x rest) beta hbeta
    set s := f x.2 alpha beta with hs_def
    have hms2 : Score.pmin ms s ≠ .nan := Score.pmin_ne_nan hms hs_ne
    have hm2 : Score.pmin m (v x) ≠ .nan := Score.pmin_ne_nan hm hvx
    have hms2E : (Score.pmin ms s).toE = min ms.toE s.toE := Score.toE_pmin hms hs_ne
    have hm2E : (Score.pmin m (v x)).toE = min m.toE (v x).toE := Score.toE_pmin hm hvx
    -- the running min never falls below `min β₀ m'`
    have hF1 : min beta0.toE (Score.pmin m (v x)).toE ≤ (Score.pmin ms s).toE := by
      rw [hms2E, hm2E]
      have hT3 : min beta0.toE (min m.toE (v x).toE) ≤ s.toE := by
        refine le_trans ?_ hs_ge
        rw [hbE]
        refine le_min (le_min (min_le_left _ _) ?_) ?_
        · exact le_trans (min_le_min_left _ (min_le_left _ _)) h1
        · exact le_trans (min_le_right _ _) (min_le_right _ _)
      have hT1 : min beta0.toE (min m.toE (v x).toE) ≤ ms.toE :=
        le_trans (min_le_min_left _ (min_le_left _ _)) h1
      exact le_min hT1 hT3
    -- the running min never exceeds `max α m'`
    have hF2 : (Score.pmin ms s).toE ≤ max alpha.toE (Score.pmin m (v x)).toE := by
      rw [hms2E, hm2E, max_min_distrib_left]
      exact le_min (le_trans (min_le_left _ _) h2)
        (le_trans (min_le_right _ _) hs_le)
    rw [abMinLoop, List.foldl_cons]
    rw [← hs_def]
    split
    · -- alpha cutoff: the loop returns the running min at once
      rename_i hcut
      have hcutE : (Score.pmin ms s).toE ≤ alpha.toE := (Score.le_iff hms2 ha).mp hcut
      constructor
      · refine le_trans ?_ hF1
        apply min_le_min_left
        exact foldl_pmin_ge_of_init hm2 (fun y hy => hv y (List.mem_cons_of_mem x hy))
      · exact le_trans hcutE (le_max_left _ _)
    · rename_i hnotcut
      have hmsge : (Score.pmin ms s).toE ≤ ms.toE := by rw [hms2E]; exact min_le_left _ _
      refine ih (fun y hy => hv y (List.mem_cons_of_mem x hy))
        (fun y hy => hf y (List.mem_cons_of_mem x hy)) _ _ _
        hms2 (Score.pmin_ne_nan hbeta hms2) hm2 ?_ hF1 hF2
      · rw [Score.toE_pmin hbeta hms2, hbE, min_assoc]
        congr 1
        exact min_eq_right hmsge

/-- Unfolding of `abValue` at positive fuel. -/
lemma abValue_succ (maxP : Player) (fuel : Nat) (cur : Player) (b : Board)
    (depth : Int) (alpha beta : Score) :
    abValue maxP (fuel + 1) cur b depth alpha beta =
      if b.terminal = true ∨ depth = 0 then Score.val (evaluate maxP.toInt b)
      else if cur = maxP then
        abMaxLoop (fun b2 a2 b3 => abValue maxP fuel (opponent cur) b2 (depth - 1) a2 b3)
          (get_child_boards cur.toInt b) Score.negInf alpha beta
      else
        abMinLoop (fun b2 a2 b3 => abValue maxP fuel (opponent cur) b2 (depth - 1) a2 b3)
          (get_child_boards cur.toInt b) Score.posInf alpha beta := rfl

/--
Fail-soft soundness of the whole alpha-beta recursion relative to minimax at
the same fuel: the pruned value stays within `[min β V, max α V]` where `V` is
the minimax value of the node.
-/
lemma abValue_bounds (maxP : Player) :
    ∀ (fuel : Nat) (cur : Player) (b : Board) (depth : Int) (alpha beta : Score),
      alpha ≠ .nan → beta ≠ .nan →
      (abValue maxP fuel cur b depth alpha beta).toE ≤
          max alpha.toE (mmValue maxP fuel cur b depth).toE ∧
        min beta.toE (mmValue maxP fuel cur b depth).toE ≤
          (abValue maxP fuel cur b depth alpha beta).toE := by
  intro fuel
  induction fuel with
  | zero =>
    intro cur b depth alpha beta ha hb
    simp only [abValue, mmValue]
    exact ⟨le_max_right _ _, min_le_right _ _⟩
  | succ n ih =>
    intro cur b depth alpha beta ha hb
    rw [abValue_succ, mmValue_succ]
    split
    · exact ⟨le_max_right _ _, min_le_right _ _⟩
    · split
      · -- max node
        have h := abMaxLoop_bounds (f := fun b2 a2 b3 =>
            abValue maxP n (opponent cur) b2 (depth - 1) a2 b3)
          (v := fun x => mmValue maxP n (opponent cur) x.2 (depth - 1))
          ha hb (get_child_boards cur.toInt b)
          (fun x _ => mmValue_ne_nan maxP n _ _ _)
          (fun x _ a2 ha2 => ⟨abValue_ne_nan maxP n _ _ _ _ _,
            (ih (opponent cur) x.2 (depth - 1) a2 beta ha2 hb).1,
            (ih (opponent cur) x.2 (depth - 1) a2 beta ha2 hb).2⟩)
          Score.negInf alpha Score.negInf Score.negInf_ne_nan ha Score.negInf_ne_nan
          (by simp) (by simp) (by simp)
        exact h
      · -- min node
        have h := abMinLoop_bounds (f := fun b2 a2 b3 =>
            abValue maxP n (opponent cur) b2 (depth - 1) a2 b3)
          (v := fun x => mmValue maxP n (opponent cur) x.2 (depth - 1))
          ha hb (get_child_boards cur.toInt b)
          (fun x _ => mmValue_ne_nan maxP n _ _ _)
          (fun x _ b2 hb2 => ⟨abValue_ne_nan maxP n _ _ _ _ _,
            (ih (opponent cur) x.2 (depth - 1) alpha b2 ha hb2).1,
            (ih (opponent cur) x.2 (depth - 1) alpha b2 ha hb2).2⟩)
          Score.posInf beta Score.posInf Score.posInf_ne_nan hb Score.posInf_ne_nan
          ((min_eq_left (Score.toE_posInf_isTop beta)).symm)
          (min_le_right _ _)
          (le_max_right _ _)
        exact ⟨h.2, h.1⟩

/-- One step of minimax's top-level loop (named for the proofs below). -/
def mmTopStep (maxP : Player) (fuel : Nat) (d : Int)
    (st : Option Nat × Score) (x : Nat × Board) : Option Nat × Score :=
  let score := mmValue maxP fuel (opponent maxP) x.2 (d - 1)
  if Score.lt st.2 score then (some x.1, score) else st

/-- One step of alpha-beta's top-level loop (named for the proofs below). -/
def abTopStep (maxP : Player) (fuel : Nat) (d : Int)
    (st : Option Nat × Score × Score) (x : Nat × Board) : Option Nat × Score × Score :=
  let score := abValue maxP fuel (opponent maxP) x.2 (d - 1) st.2.2 Score.posInf
  let next := if Score.lt st.2.1 score then (some x.1, score) else (st.1, st.2.1)
  (next.1, next.2, Score.pmax st.2.2 next.2)

lemma minimax_run_eq (p : Player) (b : Board) (d : Int) :
    minimax_run p b d =
      (get_child_boards p.toInt b).foldl (mmTopStep p b.empties d) (none, Score.negInf) := rfl

lemma alphabeta_run_eq (p : Player) (b : Board) (d : Int) :
    alphabeta_run p b d =
      (get_child_boards p.toInt b).foldl (abTopStep p b.empties d)
        (none, Score.negInf, Score.negInf) := rfl

/-- Alpha-beta's top-level loop tracks minimax's exactly: same placement, same
best score, and its `alpha` equals the running best score. -/
lemma top_loops_agree (maxP : Player) (fuel : Nat) (d : Int) :
    ∀ (l : List (Nat × Board)) (pl : Option Nat) (bs : Score), bs ≠ .nan →
      l.foldl (abTopStep maxP fuel d) (pl, bs, bs) =
        ((l.foldl (mmTopStep maxP fuel d) (pl, bs)).1,
         (l.foldl (mmTopStep maxP fuel d) (pl, bs)).2,
         (l.foldl (mmTopStep maxP fuel d) (pl, bs)).2) := by
  intro l
  induction l with
  | nil => intro pl bs hbs; rfl
  | cons x rest ih =>
    intro pl bs hbs
    have hvne : mmValue maxP fuel (opponent maxP) x.2 (d - 1) ≠ .nan :=
      mmValue_ne_nan maxP fuel _ _ _
    have hsne : abValue maxP fuel (opponent maxP) x.2 (d - 1) bs Score.posInf ≠ .nan :=
      abValue_ne_nan maxP fuel _ _ _ _ _
    obtain ⟨hup, hlow⟩ := abValue_bounds maxP fuel (opponent maxP) x.2 (d - 1) bs
      Score.posInf hbs Score.posInf_ne_nan
    rw [min_eq_right (Score.toE_posInf_isTop _)] at hlow
    rw [List.foldl_cons, List.foldl_cons]
    by_cases hlt : Score.lt bs (mmValue maxP fuel (opponent maxP) x.2 (d - 1)) = true
    · -- strict improvement: the pruned score is exact and both loops update
      have hltE := (Score.lt_iff hbs hvne).mp hlt
      have hseq : abValue maxP fuel (opponent maxP) x.2 (d - 1) bs Score.posInf =
          mmValue maxP fuel (opponent maxP) x.2 (d - 1) := by
        refine Score.toE_inj hsne hvne (le_antisymm ?_ hlow)
        rw [max_eq_right (le_of_lt hltE)] at hup
        exact hup
      have hab : abTopStep maxP fuel d (pl, bs, bs) x =
          (some x.1, mmValue maxP fuel (opponent maxP) x.2 (d - 1),
            mmValue maxP fuel (opponent maxP) x.2 (d - 1)) := by
        unfold abTopStep
        simp only [hseq, hlt, if_true]
        unfold Score.pmax
        simp [hlt]
      have hmm : mmTopStep maxP fuel d (pl, bs) x =
          (some x.1, mmValue maxP fuel (opponent maxP) x.2 (d - 1)) := by
        unfold mmTopStep
        simp [hlt]
      rw [hab, hmm]
      exact ih (some x.1) _ hvne
    · -- no improvement: the pruned score also fails the strict test
      have hlt2 : Score.lt bs (mmValue maxP fuel (opponent maxP) x.2 (d - 1)) = false := by
        cases h : Score.lt bs (mmValue maxP fuel (opponent maxP) x.2 (d - 1))
        · rfl
        · exact absurd h hlt
      have hvleE := (Score.lt_eq_false_iff hbs hvne).mp hlt2
      have hsltE : (abValue maxP fuel (opponent maxP) x.2 (d - 1) bs Score.posInf).toE ≤
          bs.toE := by
        rw [max_eq_left hvleE] at hup
        exact hup
      have hslt : Score.lt bs (abValue maxP fuel (opponent maxP) x.2 (d - 1) bs
          Score.posInf) = false := (Score.lt_eq_false_iff hbs hsne).mpr hsltE
      have hab : abTopStep maxP fuel d (pl, bs, bs) x = (pl, bs, bs) := by
        unfold abTopStep
        simp only [hslt, Bool.false_eq_true, if_false]
        unfold Score.pmax
        simp [(Score.lt_eq_false_iff hbs hbs).mpr (le_refl _)]
      have hmm : mmTopStep maxP fuel d (pl, bs) x = (pl, bs) := by
        unfold mmTopStep
        simp [hlt2]
      rw [hab, hmm]
      exact ih pl bs hbs

/-- Helper: the full statement of alpha-beta/minimax agreement. -/
lemma alphabeta_minimax_agree (p : Player) (b : Board) (d : Int) :
    alphabeta p b d = minimax p b d ∧
      (alphabeta_run p b d).2.1 = (minimax_run p b d).2 := by
  have h := top_loops_agree p b.empties d (get_child_boards p.toInt b) none
    Score.negInf Score.negInf_ne_nan
  have hab : alphabeta_run p b d =
      ((minimax_run p b d).1, (minimax_run p b d).2, (minimax_run p b d).2) := by
    rw [alphabeta_run_eq, minimax_run_eq]
    exact h
  constructor
  · show (alphabeta_run p b d).1 = minimax p b d
    rw [hab]
    rfl
  · rw [hab]

/-- **C1**: for every board, player and depth limit, `alphabeta` returns the
same chosen column as `minimax`, and the top-level best score computed by
alpha-beta's loop equals minimax's top-level best score: pruning never changes
the result. -/
theorem C1_alphabeta_equiv_minimax (p : Player) (b : Board) (d : Int) :
    alphabeta p b d = minimax p b d ∧
      (alphabeta_run p b d).2.1 = (minimax_run p b d).2 :=
  alphabeta_minimax_agree p b d

/- ## Under the gravity invariant every search value is a finite number -/

lemma pmax_negInf_val (q : ℚ) : Score.pmax Score.negInf (Score.val q) = Score.val q := rfl

lemma pmin_posInf_val (q : ℚ) : Score.pmin Score.posInf (Score.val q) = Score.val q := rfl

lemma pmax_val_val (a b : ℚ) : ∃ c, Score.pmax (Score.val a) (Score.val b) = Score.val c := by
  unfold Score.pmax
  split
  · exact ⟨b, rfl⟩
  · exact ⟨a, rfl⟩

lemma pmin_val_val (a b : ℚ) : ∃ c, Score.pmin (Score.val a) (Score.val b) = Score.val c := by
  unfold Score.pmin
  split
  · exact ⟨b, rfl⟩
  · exact ⟨a, rfl⟩

lemma foldl_pmax_val {α : Type} {v : α → Score} :
    ∀ (l : List α) (q0 : ℚ), (∀ x ∈ l, ∃ q, v x = Score.val q) →
      ∃ q, l.foldl (fun ms x => Score.pmax ms (v x)) (Score.val q0) = Score.val q := by
  intro l
  induction l with
  | nil => intro q0 _; exact ⟨q0, rfl⟩
  | cons x rest ih =>
    intro q0 hv
    obtain ⟨qx, hqx⟩ := hv x (List.mem_cons_self x rest)
    rw [List.foldl_cons, hqx]
    obtain ⟨c, hc⟩ := pmax_val_val q0 qx
    rw [hc]
    exact ih c (fun y hy => hv y (List.mem_cons_of_mem x hy))

lemma foldl_pmin_val {α : Type} {v : α → Score} :
    ∀ (l : List α) (q0 : ℚ), (∀ x ∈ l, ∃ q, v x = Score.val q) →
      ∃ q, l.foldl (fun ms x => Score.pmin ms (v x)) (Score.val q0) = Score.val q := by
  intro l
  induction l with
  | nil => intro q0 _; exact ⟨q0, rfl⟩
  | cons x rest ih =>
    intro q0 hv
    obtain ⟨qx, hqx⟩ := hv x (List.mem_cons_self x rest)
    rw [List.foldl_cons, hqx]
    obtain ⟨c, hc⟩ := pmin_val_val q0 qx
    rw [hc]
    exact ih c (fun y hy => hv y (List.mem_cons_of_mem x hy))

lemma foldl_pmax_val_of_ne_nil {α : Type} {v : α → Score} {l : List α}
    (hne : l ≠ []) (hv : ∀ x ∈ l, ∃ q, v x = Score.val q) :
    ∃ q, l.foldl (fun ms x => Score.pmax ms (v x)) Score.negInf = Score.val q := by
  cases l with
  | nil => exact absurd rfl hne
  | cons x rest =>
    obtain ⟨qx, hqx⟩ := hv x (List.mem_cons_self x rest)
    rw [List.foldl_cons, hqx, pmax_negInf_val]
    exact foldl_pmax_val rest qx (fun y hy => hv y (List.mem_cons_of_mem x hy))

lemma foldl_pmin_val_of_ne_nil {α : Type} {v : α → Score} {l : List α}
    (hne : l ≠ []) (hv : ∀ x ∈ l, ∃ q, v x = Score.val q) :
    ∃ q, l.foldl (fun ms x => Score.pmin ms (v x)) Score.posInf = Score.val q := by
  cases l with
  | nil => exact absurd rfl hne
  | cons x rest =>
    obtain ⟨qx, hqx⟩ := hv x (List.mem_cons_self x rest)
    rw [List.foldl_cons, hqx, pmin_posInf_val]
    exact foldl_pmin_val rest qx (fun y hy => hv y (List.mem_cons_of_mem x hy))

/-- On gravity boards every minimax value is a finite number. -/
lemma mmValue_val (maxP : Player) :
    ∀ (fuel : Nat) (cur : Player) (b : Board) (depth : Int), Gravity b →
      ∃ q, mmValue maxP fuel cur b depth = Score.val q := by
  intro fuel
  induction fuel with
  | zero => intro cur b depth _; exact ⟨evaluate maxP.toInt b, rfl⟩
  | succ n ih =>
    intro cur b depth hg
    rw [mmValue_succ]
    split
    · exact ⟨evaluate maxP.toInt b, rfl⟩
    · rename_i hleaf
      have hnt : b.terminal = false := by
        cases h : b.terminal
        · rfl
        · exact absurd (Or.inl h) hleaf
      have hchild : ∀ x ∈ get_child_boards cur.toInt b, ∃ q,
          mmValue maxP n (opponent cur) x.2 (depth - 1) = Score.val q :=
        fun x hx => ih (opponent cur) x.2 (depth - 1)
          (gravity_children hg (Player.toInt_ne_empty cur) hx)
      have hne := children_ne_nil hg hnt cur.toInt
      split
      · exact foldl_pmax_val_of_ne_nil hne hchild
      · exact foldl_pmin_val_of_ne_nil hne hchild

/-- Unfolding of `emValue` at positive fuel. -/
lemma emValue_succ (maxP : Player) (fuel : Nat) (cur : Player) (b : Board) (depth : Int) :
    emValue maxP (fuel + 1) cur b depth =
      if b.terminal = true ∨ depth = 0 then some (Score.val (evaluate maxP.toInt b))
      else if cur = maxP then
        (get_child_boards cur.toInt b).foldl
          (fun ms x =>
            match ms, emValue maxP fuel (opponent cur) x.2 (depth - 1) with
            | some m, some s => some (Score.pmax m s)
            | _, _ => none)
          (some Score.negInf)
      else
        if (get_child_boards cur.toInt b).length = 0 then none
        else
          (get_child_boards cur.toInt b).foldl
            (fun tv x =>
              match tv, emValue maxP fuel (opponent cur) x.2 (depth - 1) with
              | some t, some s => some (Score.add t
                  (Score.smul (1 / ((get_child_boards cur.toInt b).length : ℚ)) s))
              | _, _ => none)
            (some (Score.val 0)) := rfl

lemma foldl_opmax_val {v : Nat × Board → Option Score} :
    ∀ (l : List (Nat × Board)) (q0 : ℚ), (∀ x ∈ l, ∃ q, v x = some (Score.val q)) →
      ∃ q, l.foldl
        (fun ms x => match ms, v x with
          | some m, some s => some (Score.pmax m s)
          | _, _ => none) (some (Score.val q0)) = some (Score.val q) := by
  intro l
  induction l with
  | nil => intro q0 _; exact ⟨q0, rfl⟩
  | cons x rest ih =>
    intro q0 hv
    obtain ⟨qx, hqx⟩ := hv x (List.mem_cons_self x rest)
    rw [List.foldl_cons, hqx]
    obtain ⟨c, hc⟩ := pmax_val_val q0 qx
    simp only [hc]
    exact ih c (fun y hy => hv y (List.mem_cons_of_mem x hy))

lemma foldl_opmax_val_of_ne_nil {v : Nat × Board → Option Score} {l : List (Nat × Board)}
    (hne : l ≠ []) (hv : ∀ x ∈ l, ∃ q, v x = some (Score.val q)) :
    ∃ q, l.foldl
      (fun ms x => match ms, v x with
        | some m, some s => some (Score.pmax m s)
        | _, _ => none) (some Score.negInf) = some (Score.val q) := by
  cases l with
  | nil => exact absurd rfl hne
  | cons x rest =>
    obtain ⟨qx, hqx⟩ := hv x (List.mem_cons_self x rest)
    rw [List.foldl_cons, hqx]
    simp only [pmax_negInf_val]
    exact foldl_opmax_val rest qx (fun y hy => hv y (List.mem_cons_of_mem x hy))

/-- The rational carried by a finite score (`0` on the non-finite ones; only
applied to finite scores). -/
def Score.num : Score → ℚ
  | .val q => q
  | _ => 0

/-- The rational carried by a returned search value. -/
def oNum (o : Option Score) : ℚ := Score.num (o.getD Score.nan)

@[simp] lemma oNum_some_val (q : ℚ) : oNum (some (Score.val q)) = q := rfl

lemma foldl_oadd_val {v : Nat × Board → Option Score} {p : ℚ} :
    ∀ (l : List (Nat × Board)) (q0 : ℚ), (∀ x ∈ l, ∃ q, v x = some (Score.val q)) →
      l.foldl
        (fun tv x => match tv, v x with
          | some t, some s => some (Score.add t (Score.smul p s))
          | _, _ => none) (some (Score.val q0)) =
      some (Score.val (q0 + (l.map (fun x => p * oNum (v x))).sum)) := by
  intro l
  induction l with
  | nil => intro q0 _; simp
  | cons x rest ih =>
    intro q0 hv
    obtain ⟨qx, hqx⟩ := hv x (List.mem_cons_self x rest)
    rw [List.foldl_cons]
    beta_reduce
    rw [hqx]
    have hinit : (match some (Score.val q0), some (Score.val qx) with
        | some t, some s => some (Score.add t (Score.smul p s))
        | _, _ => (none : Option Score)) = some (Score.val (q0 + p * qx)) := rfl
    rw [hinit, ih (q0 + p * qx) (fun y hy => hv y (List.mem_cons_of_mem x hy))]
    simp only [List.map_cons, List.sum_cons, hqx, oNum_some_val, Option.some.injEq,
      Score.val.injEq]
    ring

/-- On gravity boards every expectimax value is a finite number; in particular
the expectation node never divides by zero. -/
lemma emValue_val (maxP : Player) :
    ∀ (fuel : Nat) (cur : Player) (b : Board) (depth : Int), Gravity b →
      ∃ q, emValue maxP fuel cur b depth = some (Score.val q) := by
  intro fuel
  induction fuel with
  | zero => intro cur b depth _; exact ⟨evaluate maxP.toInt b, rfl⟩
  | succ n ih =>
    intro cur b depth hg
    rw [emValue_succ]
    split
    · exact ⟨evaluate maxP.toInt b, rfl⟩
    · rename_i hleaf
      have hnt : b.terminal = false := by
        cases h : b.terminal
        · rfl
        · exact absurd (Or.inl h) hleaf
      have hchild : ∀ x ∈ get_child_boards cur.toInt b, ∃ q,
          emValue maxP n (opponent cur) x.2 (depth - 1) = some (Score.val q) :=
        fun x hx => ih (opponent cur) x.2 (depth - 1)
          (gravity_children hg (Player.toInt_ne_empty cur) hx)
      have hne := children_ne_nil hg hnt cur.toInt
      split
      · exact foldl_opmax_val_of_ne_nil hne hchild
      · rw [if_neg (by simpa using hne)]
        rw [foldl_oadd_val _ 0 hchild]
        exact ⟨_, rfl⟩

/- ## Claims C9 and C10 -/

/-- **C9**: with correct terminal detection (which holds on boards satisfying
the data model's gravity invariant, an invariant preserved by every placement),
a non-terminal node always has successors, so no min/max/average ranges over
an empty set and expectimax's expectation node never divides by zero
(`emValue` never raises). -/
theorem C9_no_empty_successor_set (b : Board) (hg : Gravity b) :
    (∀ p : Player, b.terminal = false → get_child_boards p.toInt b ≠ []) ∧
    (∀ p : Player, ∀ x ∈ get_child_boards p.toInt b, Gravity x.2) ∧
    (∀ (maxP cur : Player) (fuel : Nat) (depth : Int),
      (emValue maxP fuel cur b depth).isSome = true) := by
  refine ⟨fun p ht => children_ne_nil hg ht p.toInt,
    fun p x hx => gravity_children hg (Player.toInt_ne_empty p) hx,
    fun maxP cur fuel depth => ?_⟩
  obtain ⟨q, hq⟩ := emValue_val maxP fuel cur b depth hg
  rw [hq]
  rfl

lemma gcb_run_loop (p : Int) (b : Board) :
    ∀ (l : List Nat) (acc : List (Nat × Board)),
      (l.foldl (fun st c =>
          if st.2.placeable c then (st.1 ++ [(c, (st.2.clone).place p c)], st.2)
          else (st.1, st.2)) (acc, b)) =
        (acc ++ l.filterMap (fun c =>
          if b.placeable c then some (c, (b.clone).place p c) else none), b) := by
  intro l
  induction l with
  | nil => intro acc; simp
  | cons c rest ih =>
    intro acc
    rw [List.foldl_cons, List.filterMap_cons]
    by_cases hpl : b.placeable c = true
    · rw [if_pos hpl, ih (acc ++ [(c, (b.clone).place p c)]), if_pos hpl]
      simp
    · rw [if_neg hpl, ih acc, if_neg hpl]

/-- **C10**: `get_child_boards` leaves its argument board unchanged — the loop
threads the `board` object through untouched (discs are placed only on the
fresh clones), so after the call every cell holds the same slot value as
before, and each returned successor is exactly a clone with one placement. -/
theorem C10_get_child_boards_frame (p : Int) (b : Board) :
    (get_child_boards_run p b).2 = b ∧
    (∀ r c, ((get_child_boards_run p b).2).grid r c = b.grid r c) ∧
    (get_child_boards_run p b).1 = get_child_boards p b ∧
    ∀ x ∈ get_child_boards p b, x.2 = (b.clone).place p x.1 := by
  have hrun : get_child_boards_run p b = (get_child_boards p b, b) := by
    unfold get_child_boards_run get_child_boards
    rw [gcb_run_loop p b (List.range b.cols) []]
    simp
  refine ⟨by rw [hrun], fun r c => by rw [hrun], by rw [hrun], fun x hx => ?_⟩
  exact (mem_get_child_boards.mp hx).2.2

/- ## Concrete boards for the witnesses and counterexamples -/

/-- Grid lookup in a row-major list literal (row 0 is the bottom row). -/
def gridOf (l : List (List Int)) : Nat → Nat → Int :=
  fun r c => (l.getD r []).getD c EMPTY_SLOT

/-- The empty 1×1 board. -/
def tiny11 : Board := ⟨1, 1, gridOf [[0]]⟩

/-- An empty 4×4 board. -/
def empty44 : Board := ⟨4, 4, gridOf []⟩

/-- A 4×4 board: PLAYER1 on the bottom row at columns 0 and 1, PLAYER2 at
column 2; gravity holds. -/
def demo44 : Board := ⟨4, 4, gridOf [[1, 1, 2, 0]]⟩

/-- A 6×7 board whose bottom row gives PLAYER1 four in a row. -/
def win67 : Board := ⟨6, 7, gridOf [[1, 1, 1, 1, 2, 2, 2]]⟩

/- ## The top-level selection rule -/

/-- The selection step all three searches run at the top level:
`if score > best_score: best_score, placement = score, col`. -/
def selStep (st : Option Nat × Score) (y : Nat × Score) : Option Nat × Score :=
  if Score.lt st.2 y.2 then (some y.1, y.2) else st

/-- Best score of a `(col, score)` list, folded from `init`. -/
def bestFrom (init : Score) (l : List (Nat × Score)) : Score :=
  l.foldl (fun m y => Score.pmax m y.2) init

/-- Best score of a top-level `(col, score)` list. -/
def listBest (l : List (Nat × Score)) : Score := bestFrom Score.negInf l

/-- The spec's selection: the first column whose score attains the maximum. -/
def firstBestCol (l : List (Nat × Score)) : Option Nat :=
  (l.find? (fun y => y.2 == listBest l)).map Prod.fst

/-- The `(col, score)` pairs minimax's top level scores: every immediate
successor, evaluated at `depth_limit - 1` with the opponent to move. -/
def mmTopPairs (p : Player) (b : Board) (d : Int) : List (Nat × Score) :=
  (get_child_boards p.toInt b).map fun x =>
    (x.1, mmValue p b.empties (opponent p) x.2 (d - 1))

/-- The `(col, score)` pairs expectimax's top level scores (on gravity boards
the values are always `some`, so the `getD` default is never used). -/
def emTopPairs (p : Player) (b : Board) (d : Int) : List (Nat × Score) :=
  (get_child_boards p.toInt b).map fun x =>
    (x.1, (emValue p b.empties (opponent p) x.2 (d - 1)).getD Score.nan)

lemma minimax_run_selStep (p : Player) (b : Board) (d : Int) :
    minimax_run p b d = (mmTopPairs p b d).foldl selStep (none, Score.negInf) := by
  rw [minimax_run_eq, mmTopPairs, List.foldl_map]
  rfl

lemma elem_le_bestFrom {l : List (Nat × Score)} :
    ∀ {init : Score}, init ≠ .nan → (∀ y ∈ l, y.2 ≠ .nan) →
      ∀ y ∈ l, (y.2).toE ≤ (bestFrom init l).toE := by
  induction l with
  | nil => intro init _ _ y hy; cases hy
  | cons z rest ih =>
    intro init hi hnn y hy
    have hz : z.2 ≠ .nan := hnn z (List.mem_cons_self z rest)
    have hstep : bestFrom init (z :: rest) = bestFrom (Score.pmax init z.2) rest := rfl
    rcases List.mem_cons.mp hy with h | h
    · rw [hstep, h]
      refine le_trans ?_ (foldl_pmax_le_of_init (Score.pmax_ne_nan hi hz)
        (fun w hw => hnn w (List.mem_cons_of_mem z hw)))
      rw [Score.toE_pmax hi hz]
      exact le_max_right _ _
    · rw [hstep]
      exact ih (Score.pmax_ne_nan hi hz) (fun w hw => hnn w (List.mem_cons_of_mem z hw)) y h

lemma bestFrom_ne_nan {l : List (Nat × Score)} {init : Score}
    (hi : init ≠ .nan) (hnn : ∀ y ∈ l, y.2 ≠ .nan) : bestFrom init l ≠ .nan :=
  foldl_pmax_ne_nan l init hi hnn

lemma init_le_bestFrom {l : List (Nat × Score)} {init : Score}
    (hi : init ≠ .nan) (hnn : ∀ y ∈ l, y.2 ≠ .nan) :
    init.toE ≤ (bestFrom init l).toE :=
  foldl_pmax_le_of_init hi hnn

/-- If no score beats the running best, the selection keeps its state. -/
lemma foldl_selStep_keep {l : List (Nat × Score)} :
    ∀ {o : Option Nat} {bs : Score}, (∀ y ∈ l, Score.lt bs y.2 = false) →
      l.foldl selStep (o, bs) = (o, bs) := by
  induction l with
  | nil => intro o bs _; rfl
  | cons z rest ih =>
    intro o bs h
    rw [List.foldl_cons]
    have hz : selStep (o, bs) z = (o, bs) := by
      unfold selStep
      rw [h z (List.mem_cons_self z rest)]
      simp
    rw [hz]
    exact ih (fun y hy => h y (List.mem_cons_of_mem z hy))

lemma foldl_selStep_mem {c : Nat} :
    ∀ (l : List (Nat × Score)) (pl : Option Nat) (bs : Score),
      (l.foldl selStep (pl, bs)).1 = some c → pl = some c ∨ ∃ y ∈ l, y.1 = c := by
  intro l
  induction l with
  | nil => intro pl bs h; exact Or.inl h
  | cons z rest ih =>
    intro pl bs h
    rw [List.foldl_cons] at h
    unfold selStep at h
    split at h
    · rcases ih _ _ h with h2 | ⟨y, hy, hc⟩
      · exact Or.inr ⟨z, List.mem_cons_self z rest, Option.some_inj.mp h2⟩
      · exact Or.inr ⟨y, List.mem_cons_of_mem z hy, hc⟩
    · rcases ih _ _ h with h2 | ⟨y, hy, hc⟩
      · exact Or.inl h2
      · exact Or.inr ⟨y, List.mem_cons_of_mem z hy, hc⟩

/-- If some score beats the running best, the selection returns the first
column attaining the overall best. -/
lemma foldl_selStep_argbest {l : List (Nat × Score)} :
    ∀ {o : Option Nat} {bs : Score}, bs ≠ .nan → (∀ y ∈ l, y.2 ≠ .nan) →
      Score.lt bs (bestFrom bs l) = true →
      ∃ y, l.find? (fun y => y.2 == bestFrom bs l) = some y ∧
        (l.foldl selStep (o, bs)).1 = some y.1 := by
  induction l with
  | nil =>
    intro o bs hbs _ hlt
    rw [show bestFrom bs [] = bs from rfl] at hlt
    rw [(Score.lt_eq_false_iff hbs hbs).mpr (le_refl _)] at hlt
    cases hlt
  | cons z rest ih =>
    intro o bs hbs hnn hlt
    have hz : z.2 ≠ .nan := hnn z (List.mem_cons_self z rest)
    have hrest : ∀ y ∈ rest, y.2 ≠ .nan := fun y hy => hnn y (List.mem_cons_of_mem z hy)
    have hstep : bestFrom bs (z :: rest) = bestFrom (Score.pmax bs z.2) rest := rfl
    by_cases hy : Score.lt bs z.2 = true
    · -- the head strictly improves the running best
      have hpz : Score.pmax bs z.2 = z.2 := by unfold Score.pmax; rw [hy]; simp
      have hM : bestFrom bs (z :: rest) = bestFrom z.2 rest := by rw [hstep, hpz]
      have hMnn : bestFrom z.2 rest ≠ .nan := bestFrom_ne_nan hz hrest
      have hsel : (z :: rest).foldl selStep (o, bs) = rest.foldl selStep (some z.1, z.2) := by
        rw [List.foldl_cons]
        unfold selStep
        rw [hy]
        simp
      by_cases hy2 : Score.lt z.2 (bestFrom z.2 rest) = true
      · obtain ⟨w, hwfind, hwres⟩ := ih (o := some z.1) hz hrest hy2
        refine ⟨w, ?_, by rw [hsel, hwres]⟩
        rw [List.find?_cons, hM]
        have hzne : (z.2 == bestFrom z.2 rest) = false := by
          apply beq_eq_false_iff_ne.mpr
          intro hcontr
          rw [← hcontr] at hy2
          rw [(Score.lt_eq_false_iff hz hz).mpr (le_refl _)] at hy2
          cases hy2
        rw [hzne]
        exact hwfind
      · -- the head already attains the best
        have hy2f : Score.lt z.2 (bestFrom z.2 rest) = false := by
          cases h : Score.lt z.2 (bestFrom z.2 rest)
          · rfl
          · exact absurd h hy2
        have hMz : bestFrom z.2 rest = z.2 :=
          Score.toE_inj hMnn hz (le_antisymm ((Score.lt_eq_false_iff hz hMnn).mp hy2f)
            (init_le_bestFrom hz hrest))
        refine ⟨z, ?_, ?_⟩
        · rw [List.find?_cons, hM, hMz]
          simp
        · rw [hsel, foldl_selStep_keep]
          intro y hyr
          apply (Score.lt_eq_false_iff hz (hrest y hyr)).mpr
          calc (y.2).toE ≤ (bestFrom z.2 rest).toE := elem_le_bestFrom hz hrest y hyr
          _ = (z.2).toE := by rw [hMz]
    · -- the head does not improve the running best
      have hyf : Score.lt bs z.2 = false := by
        cases h : Score.lt bs z.2
        · rfl
        · exact absurd h hy
      have hpz : Score.pmax bs z.2 = bs := by unfold Score.pmax; rw [hyf]; simp
      have hM : bestFrom bs (z :: rest) = bestFrom bs rest := by rw [hstep, hpz]
      have hMnn : bestFrom bs rest ≠ .nan := bestFrom_ne_nan hbs hrest
      rw [hM] at hlt
      obtain ⟨w, hwfind, hwres⟩ := ih (o := o) hbs hrest hlt
      have hsel : (z :: rest).foldl selStep (o, bs) = rest.foldl selStep (o, bs) := by
        rw [List.foldl_cons]
        unfold selStep
        rw [hyf]
        simp
      refine ⟨w, ?_, by rw [hsel, hwres]⟩
      rw [List.find?_cons, hM]
      have hzne : (z.2 == bestFrom bs rest) = false := by
        apply beq_eq_false_iff_ne.mpr
        intro hcontr
        rw [hcontr] at hyf
        rw [hyf] at hlt
        cases hlt
      rw [hzne]
      exact hwfind

/-- Expectimax's top-level loop is the shared selection rule, once every
successor value is a finite number. -/
lemma em_run_loop (v : Nat × Board → Option Score) :
    ∀ (l : List (Nat × Board)) (st : Option Nat × Score),
      (∀ x ∈ l, ∃ q, v x = some (Score.val q)) →
      l.foldl (fun acc x => match acc, v x with
        | some st2, some score => if Score.lt st2.2 score then some (some x.1, score) else some st2
        | _, _ => none) (some st) =
      some (l.foldl (fun acc x => selStep acc (x.1, (v x).getD Score.nan)) st) := by
  intro l
  induction l with
  | nil => intro st _; rfl
  | cons x rest ih =>
    intro st hv
    obtain ⟨q, hq⟩ := hv x (List.mem_cons_self x rest)
    simp only [List.foldl_cons]
    rw [hq]
    by_cases hlt : Score.lt st.2 (Score.val q) = true
    · simp only [hlt, if_true, Option.getD_some]
      rw [show selStep st (x.1, Score.val q) = (some x.1, Score.val q) from by
        unfold selStep; rw [hlt]; simp]
      exact ih _ (fun y hy => hv y (List.mem_cons_of_mem x hy))
    · have hltf : Score.lt st.2 (Score.val q) = false := by
        cases h : Score.lt st.2 (Score.val q)
        · rfl
        · exact absurd h hlt
      simp only [hltf, Bool.false_eq_true, if_false, Option.getD_some]
      rw [show selStep st (x.1, Score.val q) = st from by
        unfold selStep; rw [hltf]; simp]
      exact ih _ (fun y hy => hv y (List.mem_cons_of_mem x hy))

lemma mmTopPairs_val {p : Player} {b : Board} {d : Int} (hg : Gravity b) :
    ∀ y ∈ mmTopPairs p b d, ∃ q, y.2 = Score.val q := by
  intro y hy
  obtain ⟨x, hx, hxy⟩ := List.mem_map.mp hy
  obtain ⟨q, hq⟩ := mmValue_val p b.empties (opponent p) x.2 (d - 1)
    (gravity_children hg (Player.toInt_ne_empty p) hx)
  exact ⟨q, by rw [← hxy, hq]⟩

lemma emTopPairs_val {p : Player} {b : Board} {d : Int} (hg : Gravity b) :
    ∀ y ∈ emTopPairs p b d, ∃ q, y.2 = Score.val q := by
  intro y hy
  obtain ⟨x, hx, hxy⟩ := List.mem_map.mp hy
  obtain ⟨q, hq⟩ := emValue_val p b.empties (opponent p) x.2 (d - 1)
    (gravity_children hg (Player.toInt_ne_empty p) hx)
  exact ⟨q, by rw [← hxy, hq]; rfl⟩

lemma expectimax_run_sel {p : Player} {b : Board} {d : Int} (hg : Gravity b) :
    expectimax_run p b d =
      some ((emTopPairs p b d).foldl selStep (none, Score.negInf)) := by
  have h := em_run_loop (fun x => emValue p b.empties (opponent p) x.2 (d - 1))
    (get_child_boards p.toInt b) (none, Score.negInf)
    (fun x hx => emValue_val p b.empties (opponent p) x.2 (d - 1)
      (gravity_children hg (Player.toInt_ne_empty p) hx))
  rw [show expectimax_run p b d = (get_child_boards p.toInt b).foldl
      (fun acc x => match acc, emValue p b.empties (opponent p) x.2 (d - 1) with
        | some st2, some score => if Score.lt st2.2 score then some (some x.1, score) else some st2
        | _, _ => none) (some (none, Score.negInf)) from rfl]
  rw [h, emTopPairs, List.foldl_map]

lemma children_nil_iff {p : Int} {b : Board} :
    get_child_boards p b = [] ↔ ∀ c < b.cols, b.placeable c = false := by
  constructor
  · intro hnil c hc
    by_contra hcon
    have hpl : b.placeable c = true := by
      cases h : b.placeable c
      · exact absurd h hcon
      · rfl
    have : (c, b.place p c) ∈ get_child_boards p b :=
      mem_get_child_boards.mpr ⟨hc, hpl, rfl⟩
    rw [hnil] at this
    cases this
  · intro h
    unfold get_child_boards
    apply List.filterMap_eq_nil.mpr
    intro c hc
    rw [h c (List.mem_range.mp hc)]
    simp

lemma val_ne_nan_of_exists {s : Score} (h : ∃ q, s = Score.val q) : s ≠ .nan := by
  obtain ⟨q, hq⟩ := h
  rw [hq]
  simp

lemma bestFrom_negInf_lt {l : List (Nat × Score)} (hne : l ≠ [])
    (hval : ∀ y ∈ l, ∃ q, y.2 = Score.val q) :
    Score.lt Score.negInf (bestFrom Score.negInf l) = true := by
  have hnn : ∀ y ∈ l, y.2 ≠ .nan := fun y hy => val_ne_nan_of_exists (hval y hy)
  cases l with
  | nil => exact absurd rfl hne
  | cons y rest =>
    obtain ⟨q, hq⟩ := hval y (List.mem_cons_self y rest)
    have h1 : (y.2).toE ≤ (bestFrom Score.negInf (y :: rest)).toE :=
      elem_le_bestFrom Score.negInf_ne_nan hnn y (List.mem_cons_self y rest)
    apply (Score.lt_iff Score.negInf_ne_nan
      (bestFrom_ne_nan Score.negInf_ne_nan hnn)).mpr
    calc (Score.negInf).toE = ⊥ := rfl
    _ < (y.2).toE := by rw [hq]; exact WithBot.bot_lt_coe _
    _ ≤ _ := h1

lemma pairs_col_bounds {p : Player} {b : Board} {d : Int} {y : Nat × Score}
    (hy : y ∈ mmTopPairs p b d ∨ y ∈ emTopPairs p b d) :
    y.1 < b.cols ∧ b.placeable y.1 = true := by
  rcases hy with hy | hy <;>
  · obtain ⟨x, hx, hxy⟩ := List.mem_map.mp hy
    obtain ⟨h1, h2, -⟩ := mem_get_child_boards.mp hx
    rw [← hxy]
    exact ⟨h1, h2⟩

/-- Minimax returns `none` exactly when no column is placeable
(on gravity boards). -/
lemma minimax_none_iff {p : Player} {b : Board} {d : Int} (hg : Gravity b) :
    minimax p b d = none ↔ ∀ c < b.cols, b.placeable c = false := by
  constructor
  · intro hnone
    by_contra hcon
    push_neg at hcon
    obtain ⟨c, hc, hpl⟩ := hcon
    have hpl2 : b.placeable c = true := by
      cases h : b.placeable c
      · exact absurd h hpl
      · rfl
    have hmem : (c, b.place p.toInt c) ∈ get_child_boards p.toInt b :=
      mem_get_child_boards.mpr ⟨hc, hpl2, rfl⟩
    have hne : mmTopPairs p b d ≠ [] := by
      unfold mmTopPairs
      intro hnil
      rw [List.map_eq_nil_iff] at hnil
      rw [hnil] at hmem
      cases hmem
    have hval := mmTopPairs_val (p := p) (d := d) hg
    obtain ⟨w, -, hres⟩ := foldl_selStep_argbest (o := none)
      Score.negInf_ne_nan (fun y hy => val_ne_nan_of_exists (hval y hy))
      (bestFrom_negInf_lt hne hval)
    unfold minimax at hnone
    rw [minimax_run_selStep] at hnone
    rw [hres] at hnone
    cases hnone
  · intro h
    have hnil : get_child_boards p.toInt b = [] := children_nil_iff.mpr h
    unfold minimax
    rw [minimax_run_selStep]
    unfold mmTopPairs
    rw [hnil]
    rfl

lemma minimax_some_col {p : Player} {b : Board} {d : Int} {c : Nat}
    (h : minimax p b d = some c) : c < b.cols ∧ b.placeable c = true := by
  unfold minimax at h
  rw [minimax_run_selStep] at h
  rcases foldl_selStep_mem _ _ _ h with h2 | ⟨y, hy, hc⟩
  · cases h2
  · rw [← hc]
    exact pairs_col_bounds (Or.inl hy)

/-- Expectimax under gravity: no exception, `some none` exactly on boards with
no placeable column, and returned columns are legal. -/
lemma expectimax_char {p : Player} {b : Board} {d : Int} (hg : Gravity b) :
    (expectimax p b d ≠ none) ∧
    (expectimax p b d = some none ↔ ∀ c < b.cols, b.placeable c = false) ∧
    (∀ c, expectimax p b d = some (some c) → c < b.cols ∧ b.placeable c = true) := by
  have hrun := expectimax_run_sel (p := p) (d := d) hg
  have hex : expectimax p b d =
      some (((emTopPairs p b d).foldl selStep (none, Score.negInf)).1) := by
    unfold expectimax
    rw [hrun]
    rfl
  refine ⟨by rw [hex]; simp, ?_, ?_⟩
  · rw [hex]
    constructor
    · intro hnone
      have h1 : ((emTopPairs p b d).foldl selStep (none, Score.negInf)).1 = none :=
        Option.some_inj.mp hnone
      by_contra hcon
      push_neg at hcon
      obtain ⟨c, hc, hpl⟩ := hcon
      have hpl2 : b.placeable c = true := by
        cases h : b.placeable c
        · exact absurd h hpl
        · rfl
      have hmem : (c, b.place p.toInt c) ∈ get_child_boards p.toInt b :=
        mem_get_child_boards.mpr ⟨hc, hpl2, rfl⟩
      have hne : emTopPairs p b d ≠ [] := by
        unfold emTopPairs
        intro hnil
        rw [List.map_eq_nil_iff] at hnil
        rw [hnil] at hmem
        cases hmem
      have hval := emTopPairs_val (p := p) (d := d) hg
      obtain ⟨w, -, hres⟩ := foldl_selStep_argbest (o := none)
        Score.negInf_ne_nan (fun y hy => val_ne_nan_of_exists (hval y hy))
        (bestFrom_negInf_lt hne hval)
      rw [hres] at h1
      cases h1
    · intro h
      have hnil : get_child_boards p.toInt b = [] := children_nil_iff.mpr h
      unfold emTopPairs
      rw [hnil]
      rfl
  · intro c hc
    rw [hex] at hc
    have h1 : ((emTopPairs p b d).foldl selStep (none, Score.negInf)).1 = some c :=
      Option.some_inj.mp hc
    rcases foldl_selStep_mem _ _ _ h1 with h2 | ⟨y, hy, hyc⟩
    · cases h2
    · rw [← hyc]
      exact pairs_col_bounds (Or.inr hy)

/-- **C5**: on boards satisfying the data model's gravity invariant, each of
`minimax`, `alphabeta` and `expectimax` reports "no move" exactly when no
column of the board is placeable, and otherwise returns a legal column index
`c < cols` with `placeable c`.  (Expectimax also never raises.) -/
theorem C5_no_move_iff_no_placement (p : Player) (b : Board) (d : Int)
    (hg : Gravity b) :
    (minimax p b d = none ↔ ∀ c < b.cols, b.placeable c = false) ∧
    (∀ c, minimax p b d = some c → c < b.cols ∧ b.placeable c = true) ∧
    (alphabeta p b d = none ↔ ∀ c < b.cols, b.placeable c = false) ∧
    (∀ c, alphabeta p b d = some c → c < b.cols ∧ b.placeable c = true) ∧
    (expectimax p b d ≠ none) ∧
    (expectimax p b d = some none ↔ ∀ c < b.cols, b.placeable c = false) ∧
    (∀ c, expectimax p b d = some (some c) → c < b.cols ∧ b.placeable c = true) := by
  have hab := (alphabeta_minimax_agree p b d).1
  obtain ⟨he1, he2, he3⟩ := expectimax_char (p := p) (d := d) hg
  exact ⟨minimax_none_iff hg, fun c hc => minimax_some_col hc,
    by rw [hab]; exact minimax_none_iff hg,
    fun c hc => minimax_some_col (by rw [← hab]; exact hc),
    he1, he2, he3⟩

/-- Witness for C5 at a concrete gravity board. -/
theorem C5_no_move_iff_no_placement_witness :
    Gravity demo44 ∧
      (minimax Player.P1 demo44 2 = none ↔
        ∀ c < demo44.cols, demo44.placeable c = false) :=
  ⟨by decide, (C5_no_move_iff_no_placement Player.P1 demo44 2 (by decide)).1⟩

/- ## Claim C2: depth_limit = 0 -/

/-- **C2, counterexample**: with `depth_limit = 0` minimax does *not* return
"no move": on the empty 1×1 board it expands the successor (calling `value`
with depth `-1`, which never equals `0`) and returns column 0. -/
theorem C2_counterexample :
    minimax Player.P1 tiny11 0 = some 0 ∧
      (∃ c, c < tiny11.cols ∧ tiny11.placeable c = true) := by
  constructor
  · decide
  · exact ⟨0, by decide, by decide⟩

/-- **C2, amended**: `depth_limit = 0` does not degenerate to pure evaluation
with a "no move" result.  The top level expands every successor anyway — the
recursion receives depth `-1` and only terminal boards stop it — and the
result is "no move" exactly when no column is placeable. -/
theorem C2_amended_depth_zero_expands (p : Player) (b : Board) (hg : Gravity b) :
    (minimax p b 0 = none ↔ ∀ c < b.cols, b.placeable c = false) ∧
      minimax_run p b 0 = (mmTopPairs p b 0).foldl selStep (none, Score.negInf) :=
  ⟨minimax_none_iff hg, minimax_run_selStep p b 0⟩

/-- Witness for the amended C2. -/
theorem C2_amended_depth_zero_expands_witness :
    Gravity tiny11 ∧ (minimax Player.P1 tiny11 0 = none ↔
      ∀ c < tiny11.cols, tiny11.placeable c = false) :=
  ⟨by decide, (C2_amended_depth_zero_expands Player.P1 tiny11 (by decide)).1⟩

/- ## Claim C6: top-level selection -/

lemma sel_eq_firstBestCol {l : List (Nat × Score)}
    (hval : ∀ y ∈ l, ∃ q, y.2 = Score.val q) :
    (l.foldl selStep (none, Score.negInf)).1 = firstBestCol l := by
  cases hl : l with
  | nil => rfl
  | cons z rest =>
    rw [← hl]
    have hne : l ≠ [] := by rw [hl]; simp
    obtain ⟨w, hfind, hres⟩ := foldl_selStep_argbest (o := none)
      Score.negInf_ne_nan (fun y hy => val_ne_nan_of_exists (hval y hy))
      (bestFrom_negInf_lt hne hval)
    rw [hres]
    unfold firstBestCol listBest
    rw [hfind]
    rfl

/-- **C6**: at the top level minimax and expectimax score every immediate
successor at `depth_limit - 1` with the opponent to move and pick the column
whose successor achieves the strictly greatest score; among equal maximal
scores the first-encountered (lowest) column is kept, a later equal score
never replacing it — the result is exactly "first column attaining the best
score" over the top-level `(col, score)` lists. -/
theorem C6_top_level_first_argmax (p : Player) (b : Board) (d : Int)
    (hg : Gravity b) :
    minimax p b d = firstBestCol (mmTopPairs p b d) ∧
      expectimax p b d = some (firstBestCol (emTopPairs p b d)) := by
  constructor
  · unfold minimax
    rw [minimax_run_selStep]
    exact sel_eq_firstBestCol (mmTopPairs_val hg)
  · unfold expectimax
    rw [expectimax_run_sel hg]
    show some (((emTopPairs p b d).foldl selStep (none, Score.negInf)).1) = _
    rw [sel_eq_firstBestCol (emTopPairs_val hg)]

/-- Witness for C6 at a concrete gravity board. -/
theorem C6_top_level_first_argmax_witness :
    Gravity demo44 ∧ minimax Player.P1 demo44 1 = firstBestCol (mmTopPairs Player.P1 demo44 1) :=
  ⟨by decide, (C6_top_level_first_argmax Player.P1 demo44 1 (by decide)).1⟩

/-- Witness for C9 at a concrete gravity board. -/
theorem C9_no_empty_successor_set_witness :
    Gravity demo44 ∧ (emValue Player.P1 2 Player.P2 demo44 3).isSome = true :=
  ⟨by decide, (C9_no_empty_successor_set demo44 (by decide)).2.2 Player.P1 Player.P2 2 3⟩

/- ## Claim C7: the expectation node -/

/-- A maximizing fold over `some` values is `some` of the plain maximizing
fold — expectimax's max node applies exactly minimax's max-node rule. -/
lemma foldl_opmax_eq (v : Nat × Board → Option Score) :
    ∀ (l : List (Nat × Board)) (m0 : Score),
      (∀ x ∈ l, ∃ q, v x = some (Score.val q)) →
      l.foldl (fun ms x => match ms, v x with
        | some m, some s => some (Score.pmax m s)
        | _, _ => none) (some m0) =
      some (l.foldl (fun m x => Score.pmax m ((v x).getD Score.nan)) m0) := by
  intro l
  induction l with
  | nil => intro m0 _; rfl
  | cons x rest ih =>
    intro m0 hv
    obtain ⟨q, hq⟩ := hv x (List.mem_cons_self x rest)
    simp only [List.foldl_cons]
    rw [hq]
    exact ih _ (fun y hy => hv y (List.mem_cons_of_mem x hy))

/-- **C7**: a non-base expectation node (adversary to move, not terminal,
depth not exhausted, at least one successor — guaranteed on gravity boards)
returns the uniform average `sum (1/n * value(opponent, successor, depth-1))`
over all `n` successors; a maximizing node applies exactly minimax's
max-node rule to its successor values; and the top level runs the same
selection fold as minimax, only on expectimax's successor scores. -/
theorem C7_expectation_node_average (maxP cur : Player) (b : Board) (depth : Int)
    (fuel : Nat) (hg : Gravity b) (hnt : b.terminal = false) (hd : depth ≠ 0) :
    (cur ≠ maxP →
      emValue maxP (fuel + 1) cur b depth = some (Score.val
        (((get_child_boards cur.toInt b).map (fun x =>
          (1 / ((get_child_boards cur.toInt b).length : ℚ)) *
            oNum (emValue maxP fuel (opponent cur) x.2 (depth - 1)))).sum))) ∧
    (emValue maxP (fuel + 1) maxP b depth =
      some ((get_child_boards maxP.toInt b).foldl (fun m x =>
        Score.pmax m ((emValue maxP fuel (opponent maxP) x.2 (depth - 1)).getD Score.nan))
        Score.negInf)) ∧
    (expectimax_run maxP b depth =
        some ((emTopPairs maxP b depth).foldl selStep (none, Score.negInf)) ∧
      minimax_run maxP b depth =
        (mmTopPairs maxP b depth).foldl selStep (none, Score.negInf)) := by
  have hleaf : ¬ (b.terminal = true ∨ depth = 0) := by
    rintro (h | h)
    · rw [hnt] at h; cases h
    · exact hd h
  refine ⟨?_, ?_, expectimax_run_sel hg, minimax_run_selStep maxP b depth⟩
  · intro hcur
    have hchild : ∀ x ∈ get_child_boards cur.toInt b, ∃ q,
        emValue maxP fuel (opponent cur) x.2 (depth - 1) = some (Score.val q) :=
      fun x hx => emValue_val maxP fuel (opponent cur) x.2 (depth - 1)
        (gravity_children hg (Player.toInt_ne_empty cur) hx)
    have hne := children_ne_nil hg hnt cur.toInt
    rw [emValue_succ, if_neg hleaf, if_neg hcur, if_neg (by simpa using hne)]
    rw [foldl_oadd_val _ 0 hchild]
    rw [zero_add]
  · have hchild : ∀ x ∈ get_child_boards maxP.toInt b, ∃ q,
        emValue maxP fuel (opponent maxP) x.2 (depth - 1) = some (Score.val q) :=
      fun x hx => emValue_val maxP fuel (opponent maxP) x.2 (depth - 1)
        (gravity_children hg (Player.toInt_ne_empty maxP) hx)
    rw [emValue_succ, if_neg hleaf, if_pos rfl]
    exact foldl_opmax_eq _ _ _ hchild

/-- Witness for C7 at a concrete gravity board and expectation node. -/
theorem C7_expectation_node_average_witness :
    Gravity demo44 ∧ demo44.terminal = false ∧ (3 : Int) ≠ 0 ∧
      emValue Player.P1 (1 + 1) Player.P2 demo44 3 = some (Score.val
        (((get_child_boards Player.P2.toInt demo44).map (fun x =>
          (1 / ((get_child_boards Player.P2.toInt demo44).length : ℚ)) *
            oNum (emValue Player.P1 1 (opponent Player.P2) x.2 (3 - 1)))).sum)) :=
  ⟨by decide, by decide, by decide,
    (C7_expectation_node_average Player.P1 Player.P2 demo44 3 1 (by decide)
      (by decide) (by decide)).1 (by decide)⟩

/- ## Claim C8: expectimax lies between worst case and best case -/

/--
Modelled from the spec: the "unconstrained best case" comparator of the
Expectimax bound property — the same bounded recursion with every node,
the adversary's included, maximizing over its successors.
-/
def bcValue (maxP : Player) : Nat → Player → Board → Int → Score
  | 0, _, b, _ => Score.val (evaluate maxP.toInt b)
  | fuel + 1, cur, b, depth =>
    if b.terminal = true ∨ depth = 0 then Score.val (evaluate maxP.toInt b)
    else
      (get_child_boards cur.toInt b).foldl
        (fun ms x => Score.pmax ms (bcValue maxP fuel (opponent cur) x.2 (depth - 1)))
        Score.negInf

lemma pmax_val_eq (a b : ℚ) : Score.pmax (Score.val a) (Score.val b) = Score.val (max a b) := by
  unfold Score.pmax
  rcases le_or_lt b a with h | h
  · rw [if_neg (by simp [Score.lt, not_lt.mpr h]), max_eq_left h]
  · rw [if_pos (by simp [Score.lt, h]), max_eq_right (le_of_lt h)]

lemma pmin_val_eq (a b : ℚ) : Score.pmin (Score.val a) (Score.val b) = Score.val (min a b) := by
  unfold Score.pmin
  rcases le_or_lt a b with h | h
  · rw [if_neg (by simp [Score.lt, not_lt.mpr h]), min_eq_left h]
  · rw [if_pos (by simp [Score.lt, h]), min_eq_right (le_of_lt h)]

lemma foldl_pmax_eq_val {α : Type} {v : α → Score} {qv : α → ℚ} :
    ∀ (l : List α) (q0 : ℚ), (∀ x ∈ l, v x = Score.val (qv x)) →
      l.foldl (fun ms x => Score.pmax ms (v x)) (Score.val q0) =
        Score.val (l.foldl (fun m x => max m (qv x)) q0) := by
  intro l
  induction l with
  | nil => intro q0 _; rfl
  | cons x rest ih =>
    intro q0 hv
    rw [List.foldl_cons, List.foldl_cons]
    beta_reduce
    rw [hv x (List.mem_cons_self x rest), pmax_val_eq]
    exact ih _ (fun y hy => hv y (List.mem_cons_of_mem x hy))

lemma foldl_pmin_eq_val {α : Type} {v : α → Score} {qv : α → ℚ} :
    ∀ (l : List α) (q0 : ℚ), (∀ x ∈ l, v x = Score.val (qv x)) →
      l.foldl (fun ms x => Score.pmin ms (v x)) (Score.val q0) =
        Score.val (l.foldl (fun m x => min m (qv x)) q0) := by
  intro l
  induction l with
  | nil => intro q0 _; rfl
  | cons x rest ih =>
    intro q0 hv
    rw [List.foldl_cons, List.foldl_cons]
    beta_reduce
    rw [hv x (List.mem_cons_self x rest), pmin_val_eq]
    exact ih _ (fun y hy => hv y (List.mem_cons_of_mem x hy))

lemma foldl_qmax_le_pointwise {α : Type} {qv qw : α → ℚ} :
    ∀ (l : List α) {a b : ℚ}, a ≤ b → (∀ x ∈ l, qv x ≤ qw x) →
      l.foldl (fun m x => max m (qv x)) a ≤ l.foldl (fun m x => max m (qw x)) b := by
  intro l
  induction l with
  | nil => intro a b hab _; exact hab
  | cons x rest ih =>
    intro a b hab h
    rw [List.foldl_cons, List.foldl_cons]
    exact ih (max_le_max hab (h x (List.mem_cons_self x rest)))
      (fun y hy => h y (List.mem_cons_of_mem x hy))

lemma foldl_qmin_le_pointwise {α : Type} {qv qw : α → ℚ} :
    ∀ (l : List α) {a b : ℚ}, a ≤ b → (∀ x ∈ l, qv x ≤ qw x) →
      l.foldl (fun m x => min m (qv x)) a ≤ l.foldl (fun m x => min m (qw x)) b := by
  intro l
  induction l with
  | nil => intro a b hab _; exact hab
  | cons x rest ih =>
    intro a b hab h
    rw [List.foldl_cons, List.foldl_cons]
    exact ih (min_le_min hab (h x (List.mem_cons_self x rest)))
      (fun y hy => h y (List.mem_cons_of_mem x hy))

lemma foldl_qmin_le_mem {α : Type} {v : α → ℚ} :
    ∀ (l : List α) (a : ℚ), (l.foldl (fun m x => min m (v x)) a ≤ a) ∧
      ∀ x ∈ l, l.foldl (fun m x => min m (v x)) a ≤ v x := by
  intro l
  induction l with
  | nil => intro a; exact ⟨le_refl _, fun x hx => absurd hx (List.not_mem_nil x)⟩
  | cons x rest ih =>
    intro a
    rw [List.foldl_cons]
    obtain ⟨h1, h2⟩ := ih (min a (v x))
    refine ⟨le_trans h1 (min_le_left _ _), fun y hy => ?_⟩
    rcases List.mem_cons.mp hy with h | h
    · rw [h]; exact le_trans h1 (min_le_right _ _)
    · exact h2 y h

lemma foldl_qmax_ge_mem {α : Type} {v : α → ℚ} :
    ∀ (l : List α) (a : ℚ), (a ≤ l.foldl (fun m x => max m (v x)) a) ∧
      ∀ x ∈ l, v x ≤ l.foldl (fun m x => max m (v x)) a := by
  intro l
  induction l with
  | nil => intro a; exact ⟨le_refl _, fun x hx => absurd hx (List.not_mem_nil x)⟩
  | cons x rest ih =>
    intro a
    rw [List.foldl_cons]
    obtain ⟨h1, h2⟩ := ih (max a (v x))
    refine ⟨le_trans (le_max_left _ _) h1, fun y hy => ?_⟩
    rcases List.mem_cons.mp hy with h | h
    · rw [h]; exact le_trans (le_max_right _ _) h1
    · exact h2 y h

/-- A uniform average over a nonempty list is bounded by any pointwise lower
and upper bound of its entries. -/
lemma avg_bounds {α : Type} {l : List α} (hne : l ≠ []) (f : α → ℚ) {m M : ℚ}
    (hm : ∀ x ∈ l, m ≤ f x) (hM : ∀ x ∈ l, f x ≤ M) :
    m ≤ (l.map (fun x => (1 / (l.length : ℚ)) * f x)).sum ∧
      (l.map (fun x => (1 / (l.length : ℚ)) * f x)).sum ≤ M := by
  have hn : 0 < (l.length : ℚ) := by
    have : 0 < l.length := List.length_pos.mpr hne
    exact_mod_cast this
  have hp : 0 < 1 / (l.length : ℚ) := by positivity
  constructor
  · have hlow : ∀ x ∈ l, (1 / (l.length : ℚ)) * m ≤ (1 / (l.length : ℚ)) * f x :=
      fun x hx => mul_le_mul_of_nonneg_left (hm x hx) (le_of_lt hp)
    have h1 : ((l.map (fun _ => (1 / (l.length : ℚ)) * m)).sum ≤
        (l.map (fun x => (1 / (l.length : ℚ)) * f x)).sum) := by
      apply List.sum_le_sum
      intro x hx
      exact hlow x hx
    have h2 : (l.map (fun _ => (1 / (l.length : ℚ)) * m)).sum =
        (l.length : ℚ) * ((1 / (l.length : ℚ)) * m) := by
      rw [List.map_const']
      rw [List.sum_replicate]
      simp [nsmul_eq_mul]
    rw [h2] at h1
    calc m = (l.length : ℚ) * ((1 / (l.length : ℚ)) * m) := by
          field_simp
    _ ≤ _ := h1
  · have hhigh : ∀ x ∈ l, (1 / (l.length : ℚ)) * f x ≤ (1 / (l.length : ℚ)) * M :=
      fun x hx => mul_le_mul_of_nonneg_left (hM x hx) (le_of_lt hp)
    have h1 : ((l.map (fun x => (1 / (l.length : ℚ)) * f x)).sum ≤
        (l.map (fun _ => (1 / (l.length : ℚ)) * M)).sum) := by
      apply List.sum_le_sum
      intro x hx
      exact hhigh x hx
    have h2 : (l.map (fun _ => (1 / (l.length : ℚ)) * M)).sum =
        (l.length : ℚ) * ((1 / (l.length : ℚ)) * M) := by
      rw [List.map_const']
      rw [List.sum_replicate]
      simp [nsmul_eq_mul]
    rw [h2] at h1
    calc (l.map (fun x => (1 / (l.length : ℚ)) * f x)).sum ≤ _ := h1
    _ = M := by field_simp

/-- Unfolding of `bcValue` at positive fuel. -/
lemma bcValue_succ (maxP : Player) (fuel : Nat) (cur : Player) (b : Board) (depth : Int) :
    bcValue maxP (fuel + 1) cur b depth =
      if b.terminal = true ∨ depth = 0 then Score.val (evaluate maxP.toInt b)
      else
        (get_child_boards cur.toInt b).foldl
          (fun ms x => Score.pmax ms (bcValue maxP fuel (opponent cur) x.2 (depth - 1)))
          Score.negInf := rfl

lemma foldl_pmax_negInf_eq_val {α : Type} {v : α → Score} {qv : α → ℚ} (c0 : α)
    (cr : List α) (hv : ∀ x ∈ c0 :: cr, v x = Score.val (qv x)) :
    (c0 :: cr).foldl (fun ms x => Score.pmax ms (v x)) Score.negInf =
      Score.val (cr.foldl (fun m x => max m (qv x)) (qv c0)) := by
  rw [List.foldl_cons]
  beta_reduce
  rw [hv c0 (List.mem_cons_self c0 cr), pmax_negInf_val]
  exact foldl_pmax_eq_val cr (qv c0) (fun y hy => hv y (List.mem_cons_of_mem c0 hy))

lemma foldl_pmin_posInf_eq_val {α : Type} {v : α → Score} {qv : α → ℚ} (c0 : α)
    (cr : List α) (hv : ∀ x ∈ c0 :: cr, v x = Score.val (qv x)) :
    (c0 :: cr).foldl (fun ms x => Score.pmin ms (v x)) Score.posInf =
      Score.val (cr.foldl (fun m x => min m (qv x)) (qv c0)) := by
  rw [List.foldl_cons]
  beta_reduce
  rw [hv c0 (List.mem_cons_self c0 cr), pmin_posInf_val]
  exact foldl_pmin_eq_val cr (qv c0) (fun y hy => hv y (List.mem_cons_of_mem c0 hy))

/--
On gravity boards: at the same fuel, minimax (worst case), expectimax and the
spec's unconstrained best case are all finite and ordered
`minimax ≤ expectimax ≤ best case` — a uniform average over a successor set is
bounded by that set's minimum and maximum.
-/
lemma mm_em_bc_bounds (maxP : Player) :
    ∀ (fuel : Nat) (cur : Player) (b : Board) (depth : Int), Gravity b →
      ∃ qm qe qb, mmValue maxP fuel cur b depth = Score.val qm ∧
        emValue maxP fuel cur b depth = some (Score.val qe) ∧
        bcValue maxP fuel cur b depth = Score.val qb ∧ qm ≤ qe ∧ qe ≤ qb := by
  intro fuel
  induction fuel with
  | zero =>
    intro cur b depth _
    exact ⟨_, _, _, rfl, rfl, rfl, le_refl _, le_refl _⟩
  | succ n ih =>
    intro cur b depth hg
    by_cases hlf : b.terminal = true ∨ depth = 0
    · rw [mmValue_succ, emValue_succ, bcValue_succ, if_pos hlf, if_pos hlf, if_pos hlf]
      exact ⟨_, _, _, rfl, rfl, rfl, le_refl _, le_refl _⟩
    · have hnt : b.terminal = false := by
        cases h : b.terminal
        · rfl
        · exact absurd (Or.inl h) hlf
      have hgch : ∀ x ∈ get_child_boards cur.toInt b, Gravity x.2 :=
        fun x hx => gravity_children hg (Player.toInt_ne_empty cur) hx
      have htrip := fun (x : Nat × Board) (hx : x ∈ get_child_boards cur.toInt b) =>
        ih (opponent cur) x.2 (depth - 1) (hgch x hx)
      -- name the three per-child numbers
      set qm := fun (x : Nat × Board) =>
        Score.num (mmValue maxP n (opponent cur) x.2 (depth - 1)) with hqm_def
      set qe := fun (x : Nat × Board) =>
        oNum (emValue maxP n (opponent cur) x.2 (depth - 1)) with hqe_def
      set qb := fun (x : Nat × Board) =>
        Score.num (bcValue maxP n (opponent cur) x.2 (depth - 1)) with hqb_def
      have hmm : ∀ x ∈ get_child_boards cur.toInt b,
          mmValue maxP n (opponent cur) x.2 (depth - 1) = Score.val (qm x) := by
        intro x hx
        obtain ⟨a, e, c, h1, -, -, -, -⟩ := htrip x hx
        rw [h1, hqm_def]
        simp only [h1]
        rfl
      have hem : ∀ x ∈ get_child_boards cur.toInt b,
          emValue maxP n (opponent cur) x.2 (depth - 1) = some (Score.val (qe x)) := by
        intro x hx
        obtain ⟨a, e, c, -, h2, -, -, -⟩ := htrip x hx
        rw [h2, hqe_def]
        simp only [h2]
        rfl
      have hbc : ∀ x ∈ get_child_boards cur.toInt b,
          bcValue maxP n (opponent cur) x.2 (depth - 1) = Score.val (qb x) := by
        intro x hx
        obtain ⟨a, e, c, -, -, h3, -, -⟩ := htrip x hx
        rw [h3, hqb_def]
        simp only [h3]
        rfl
      have hme : ∀ x ∈ get_child_boards cur.toInt b, qm x ≤ qe x := by
        intro x hx
        obtain ⟨a, e, c, h1, h2, -, l1, -⟩ := htrip x hx
        have ha : qm x = a := by rw [hqm_def]; simp only [h1]; rfl
        have he : qe x = e := by rw [hqe_def]; simp only [h2]; rfl
        rw [ha, he]
        exact l1
      have heb : ∀ x ∈ get_child_boards cur.toInt b, qe x ≤ qb x := by
        intro x hx
        obtain ⟨a, e, c, -, h2, h3, -, l2⟩ := htrip x hx
        have he : qe x = e := by rw [hqe_def]; simp only [h2]; rfl
        have hc : qb x = c := by rw [hqb_def]; simp only [h3]; rfl
        rw [he, hc]
        exact l2
      have hne := children_ne_nil hg hnt cur.toInt
      by_cases hcur : cur = maxP
      · -- maximizing node for all three
        rw [mmValue_succ, emValue_succ, bcValue_succ,
          if_neg hlf, if_neg hlf, if_neg hlf, if_pos hcur, if_pos hcur]
        rw [foldl_opmax_eq _ _ _ (fun x hx => ⟨qe x, hem x hx⟩)]
        cases hch : get_child_boards cur.toInt b with
        | nil => exact absurd hch hne
        | cons c0 cr =>
          have hmm2 := fun x hx => hmm x (by rw [hch]; exact hx)
          have hem2 : ∀ x ∈ c0 :: cr,
              (emValue maxP n (opponent cur) x.2 (depth - 1)).getD Score.nan =
                Score.val (qe x) := by
            intro x hx
            rw [hem x (by rw [hch]; exact hx)]
            rfl
          have hbc2 := fun x hx => hbc x (by rw [hch]; exact hx)
          rw [foldl_pmax_negInf_eq_val c0 cr hmm2,
            foldl_pmax_negInf_eq_val c0 cr hem2,
            foldl_pmax_negInf_eq_val c0 cr hbc2]
          refine ⟨_, _, _, rfl, rfl, rfl, ?_, ?_⟩
          · exact foldl_qmax_le_pointwise cr
              (hme c0 (by rw [hch]; exact List.mem_cons_self c0 cr))
              (fun x hx => hme x (by rw [hch]; exact List.mem_cons_of_mem c0 hx))
          · exact foldl_qmax_le_pointwise cr
              (heb c0 (by rw [hch]; exact List.mem_cons_self c0 cr))
              (fun x hx => heb x (by rw [hch]; exact List.mem_cons_of_mem c0 hx))
      · -- adversary node: minimax minimizes, expectimax averages, best case maximizes
        rw [mmValue_succ, emValue_succ, bcValue_succ,
          if_neg hlf, if_neg hlf, if_neg hlf, if_neg hcur, if_neg hcur,
          if_neg (by simpa using hne)]
        rw [foldl_oadd_val _ 0 (fun x hx => ⟨qe x, hem x hx⟩), zero_add]
        cases hch : get_child_boards cur.toInt b with
        | nil => exact absurd hch hne
        | cons c0 cr =>
          have hmm2 := fun x hx => hmm x (by rw [hch]; exact hx)
          have hbc2 := fun x hx => hbc x (by rw [hch]; exact hx)
          rw [foldl_pmin_posInf_eq_val c0 cr hmm2,
            foldl_pmax_negInf_eq_val c0 cr hbc2]
          have hqe_sum : ((c0 :: cr).map (fun x =>
              (1 / (((c0 :: cr).length : ℚ))) *
                oNum (emValue maxP n (opponent cur) x.2 (depth - 1)))).sum =
              ((c0 :: cr).map (fun x => (1 / (((c0 :: cr).length : ℚ))) * qe x)).sum := rfl
          rw [hqe_sum]
          have hmin := foldl_qmin_le_mem (v := qe) cr (qe c0)
          have hmax := foldl_qmax_ge_mem (v := qb) cr (qb c0)
          have hminb : ∀ x ∈ c0 :: cr, cr.foldl (fun m x => min m (qe x)) (qe c0) ≤ qe x := by
            intro x hx
            rcases List.mem_cons.mp hx with h | h
            · rw [h]; exact hmin.1
            · exact hmin.2 x h
          have hmaxb : ∀ x ∈ c0 :: cr, qe x ≤ cr.foldl (fun m x => max m (qb x)) (qb c0) := by
            intro x hx
            refine le_trans (heb x (by rw [hch]; exact hx)) ?_
            rcases List.mem_cons.mp hx with h | h
            · rw [h]; exact hmax.1
            · exact hmax.2 x h
          obtain ⟨havg1, havg2⟩ := avg_bounds (List.cons_ne_nil c0 cr) qe hminb hmaxb
          refine ⟨_, _, _, rfl, rfl, rfl, ?_, havg2⟩
          refine le_trans ?_ havg1
          exact foldl_qmin_le_pointwise cr
            (hme c0 (by rw [hch]; exact List.mem_cons_self c0 cr))
            (fun x hx => hme x (by rw [hch]; exact List.mem_cons_of_mem c0 hx))

/-- **C8**: for every gravity board, player and depth limit, expectimax's
top-level score for each move lies between the minimax worst case (the
min-propagated value of that move) and the unconstrained best case (the
max-propagated value of that move). -/
theorem C8_expectimax_between_worst_and_best (p : Player) (b : Board) (d : Int)
    (hg : Gravity b) :
    ∀ x ∈ get_child_boards p.toInt b,
      ∃ qm qe qb, mmValue p b.empties (opponent p) x.2 (d - 1) = Score.val qm ∧
        emValue p b.empties (opponent p) x.2 (d - 1) = some (Score.val qe) ∧
        bcValue p b.empties (opponent p) x.2 (d - 1) = Score.val qb ∧
        qm ≤ qe ∧ qe ≤ qb :=
  fun x hx => mm_em_bc_bounds p b.empties (opponent p) x.2 (d - 1)
    (gravity_children hg (Player.toInt_ne_empty p) hx)

/-- Witness for C8 at a concrete gravity board and move. -/
theorem C8_expectimax_between_worst_and_best_witness :
    Gravity demo44 ∧
      ∃ qm qe qb, mmValue Player.P1 demo44.empties (opponent Player.P1)
          ((demo44.clone).place Player.P1.toInt 0) (2 - 1) = Score.val qm ∧
        emValue Player.P1 demo44.empties (opponent Player.P1)
          ((demo44.clone).place Player.P1.toInt 0) (2 - 1) = some (Score.val qe) ∧
        bcValue Player.P1 demo44.empties (opponent Player.P1)
          ((demo44.clone).place Player.P1.toInt 0) (2 - 1) = Score.val qb ∧
        qm ≤ qe ∧ qe ≤ qb :=
  ⟨by decide,
    C8_expectimax_between_worst_and_best Player.P1 demo44 2 (by decide)
      (0, (demo44.clone).place Player.P1.toInt 0)
      (mem_get_child_boards.mpr ⟨by decide, by decide, rfl⟩)⟩

/- ## The evaluator as a sum of per-segment contributions -/

/-- What one 4-slot window contributes to `evaluate(player, board)`: its
weighted player count when free of adversary discs, minus its weighted
adversary count when free of player discs; padded windows contribute nothing. -/
def contrib (player adversary : Int) (s : List Int) : Int :=
  (if (-1 : Int) ∈ s ∨ adversary ∈ s then 0 else weight (s.count player)) -
  (if (-1 : Int) ∈ s ∨ player ∈ s then 0 else weight (s.count adversary))

lemma dotZip_set :
    ∀ (l ws : List Int) (k : Nat), k < l.length → l.length ≤ ws.length →
      (((l.set k (l.getD k 0 + 1)).zip ws).map (fun x => x.1 * x.2)).sum =
        ((l.zip ws).map (fun x => x.1 * x.2)).sum + ws.getD k 0 := by
  intro l
  induction l with
  | nil => intro ws k hk _; cases hk
  | cons a l2 ih =>
    intro ws k hk hws
    cases ws with
    | nil => simp at hws
    | cons w ws2 =>
      cases k with
      | zero => simp [List.set]; ring
      | succ k2 =>
        simp only [List.set, List.zip_cons_cons, List.map_cons, List.sum_cons,
          List.getD_cons_succ]
        rw [ih ws2 k2 (by simpa using hk) (by simpa using hws)]
        ring

lemma dotW_set {l : List Int} {k : Nat} (hl : l.length = 5) (hk : k < 5) :
    dotW (l.set k (l.getD k 0 + 1)) = dotW l + weight k := by
  unfold dotW weight
  exact dotZip_set l weights k (by omega) (by rw [hl]; rfl)

lemma tally_fold (p a : Int) :
    ∀ (segs : List (List Int)) (sc : List Int × List Int),
      (∀ s ∈ segs, s.length = 4) → sc.1.length = 5 → sc.2.length = 5 →
      dotW (segs.foldl (tally p a) sc).1 - dotW (segs.foldl (tally p a) sc).2 =
        (dotW sc.1 - dotW sc.2) + (segs.map (contrib p a)).sum := by
  intro segs
  induction segs with
  | nil => intro sc _ _ _; simp
  | cons s rest ih =>
    intro sc hlen h1 h2
    have hs4 : s.length = 4 := hlen s (List.mem_cons_self s rest)
    rw [List.foldl_cons, List.map_cons, List.sum_cons]
    by_cases hinv : (-1 : Int) ∈ s
    · have ht : tally p a sc s = sc := by unfold tally; rw [if_pos hinv]
      have hc : contrib p a s = 0 := by
        unfold contrib
        rw [if_pos (Or.inl hinv), if_pos (Or.inl hinv)]
        ring
      rw [ht, hc, ih sc (fun w hw => hlen w (List.mem_cons_of_mem s hw)) h1 h2]
      ring
    · have ht : tally p a sc s =
          ⟨if a ∈ s then sc.1 else sc.1.set (s.count p) (sc.1.getD (s.count p) 0 + 1),
           if p ∈ s then sc.2 else sc.2.set (s.count a) (sc.2.getD (s.count a) 0 + 1)⟩ := by
        unfold tally
        rw [if_neg hinv]
      have hcount_p : s.count p < 5 := by
        have := List.count_le_length p s
        omega
      have hcount_a : s.count a < 5 := by
        have := List.count_le_length a s
        omega
      have hl1 : (if a ∈ s then sc.1 else
          sc.1.set (s.count p) (sc.1.getD (s.count p) 0 + 1)).length = 5 := by
        split
        · exact h1
        · rw [List.length_set]; exact h1
      have hl2 : (if p ∈ s then sc.2 else
          sc.2.set (s.count a) (sc.2.getD (s.count a) 0 + 1)).length = 5 := by
        split
        · exact h2
        · rw [List.length_set]; exact h2
      rw [ht, ih _ (fun w hw => hlen w (List.mem_cons_of_mem s hw)) hl1 hl2]
      have hd1 : dotW (if a ∈ s then sc.1 else
          sc.1.set (s.count p) (sc.1.getD (s.count p) 0 + 1)) =
          dotW sc.1 + (if a ∈ s then 0 else weight (s.count p)) := by
        split
        · ring
        · rw [dotW_set h1 hcount_p]
      have hd2 : dotW (if p ∈ s then sc.2 else
          sc.2.set (s.count a) (sc.2.getD (s.count a) 0 + 1)) =
          dotW sc.2 + (if p ∈ s then 0 else weight (s.count a)) := by
        split
        · ring
        · rw [dotW_set h2 hcount_a]
      rw [hd1, hd2]
      unfold contrib
      have hc1 : (if (-1 : Int) ∈ s ∨ a ∈ s then 0 else weight (s.count p)) =
          (if a ∈ s then 0 else weight (s.count p)) := by
        by_cases h : a ∈ s
        · rw [if_pos (Or.inr h), if_pos h]
        · rw [if_neg (by tauto), if_neg h]
      have hc2 : (if (-1 : Int) ∈ s ∨ p ∈ s then 0 else weight (s.count a)) =
          (if p ∈ s then 0 else weight (s.count a)) := by
        by_cases h : p ∈ s
        · rw [if_pos (Or.inr h), if_pos h]
        · rw [if_neg (by tauto), if_neg h]
      rw [hc1, hc2]
      ring

lemma min?_le_all {l : List Nat} {n : Nat} (h : l.min? = some n) : ∀ a ∈ l, n ≤ a :=
  ((List.min?_eq_some_iff (fun a => le_refl a) (fun a b => min_choice a b)
    (fun a b c => le_min_iff)).mp h).2

lemma pyzip_length {α : Type} [Inhabited α] {ls : List (List α)} :
    ∀ c ∈ pyzip ls, c.length = ls.length := by
  intro c hc
  unfold pyzip at hc
  split at hc
  · cases hc
  · obtain ⟨i, -, hi⟩ := List.mem_map.mp hc
    rw [← hi, List.length_map]

/-- Every window `evaluate` scores has exactly 4 slots. -/
lemma segments_length {b : Board} : ∀ s ∈ segments b, s.length = 4 := by
  intro s hs
  unfold segments at hs
  simp only [List.mem_append] at hs
  rcases hs with ((hs | hs) | hs) | hs
  · obtain ⟨r, -, hr⟩ := List.mem_flatMap.mp hs
    obtain ⟨c, hc, hcs⟩ := List.mem_map.mp hr
    rw [← hcs, List.length_take, List.length_drop, Board.row, List.length_map,
      List.length_range]
    have := List.mem_range.mp hc
    omega
  · obtain ⟨c, -, hc⟩ := List.mem_flatMap.mp hs
    obtain ⟨r, hr, hrs⟩ := List.mem_map.mp hc
    rw [← hrs, List.length_take, List.length_drop, Board.col, List.length_map,
      List.length_range]
    have := List.mem_range.mp hr
    omega
  · obtain ⟨c, hcz, hc⟩ := List.mem_flatMap.mp hs
    obtain ⟨r, hr, hrs⟩ := List.mem_map.mp hc
    have hclen := pyzip_length c hcz
    rw [List.length_map, List.length_range] at hclen
    -- each padded row has length `cols + rows - 1`, so each transposed column
    -- has `rows` entries and the slice at `r < rows - 3` is full
    have hcl : c.length = b.rows := hclen
    rw [← hrs, List.length_take, List.length_drop, hcl]
    have := List.mem_range.mp hr
    omega
  · obtain ⟨c, hcz, hc⟩ := List.mem_flatMap.mp hs
    obtain ⟨r, hr, hrs⟩ := List.mem_map.mp hc
    have hclen := pyzip_length c hcz
    rw [List.length_map, List.length_range] at hclen
    rw [← hrs, List.length_take, List.length_drop, hclen]
    have := List.mem_range.mp hr
    omega

/-- `evaluate` is the sum of the per-window contributions. -/
lemma evaluate_eq_sum (player : Int) (b : Board) :
    evaluate player b = ((segments b).map (contrib player (pyAdv player))).sum := by
  unfold evaluate
  have h := tally_fold player (pyAdv player) (segments b)
    (List.replicate 5 0, List.replicate 5 0) segments_length (by simp) (by simp)
  simp only at h
  rw [h]
  have hz : dotW (List.replicate 5 0) = 0 := rfl
  rw [hz]
  ring

/- ## Claim C3: the evaluator is exactly antisymmetric -/

lemma contrib_swap (p a : Int) (s : List Int) : contrib a p s = -(contrib p a s) := by
  unfold contrib
  ring

lemma sum_map_neg {α : Type} (l : List α) (f : α → Int) :
    (l.map fun x => -(f x)).sum = -((l.map f).sum) := by
  induction l with
  | nil => simp
  | cons x rest ih => simp [ih]; ring

lemma pyAdv_toInt (p : Player) : pyAdv p.toInt = (opponent p).toInt := by
  cases p <;> rfl

/-- Swapping the player negates the evaluation, exactly. -/
lemma evaluate_antisym (p : Player) (b : Board) :
    evaluate (opponent p).toInt b = -(evaluate p.toInt b) := by
  rw [evaluate_eq_sum, evaluate_eq_sum, pyAdv_toInt, pyAdv_toInt]
  have hopp : (opponent (opponent p)) = p := by cases p <;> rfl
  rw [hopp]
  rw [List.map_congr_left (fun s _ => contrib_swap p.toInt (opponent p).toInt s)]
  exact sum_map_neg (segments b) (contrib p.toInt (opponent p).toInt)

/-- A mixed 6×7 position with a nonzero evaluation. -/
def mixed67 : Board :=
  ⟨6, 7, gridOf [[1, 2, 0, 1, 0, 0, 2], [0, 1, 1, 2, 0, 0, 0], [0, 0, 2, 1, 0, 0, 0]]⟩

/-- **C3, counterexample**: the claim predicts that the independent per-side
segment filters can break `evaluate(P, B) = -evaluate(opponent(P), B)`; at
this mixed position (as at every position, see the amended theorem) the two
evaluations are exact negatives. -/
theorem C3_counterexample_antisym_holds :
    evaluate PLAYER1 mixed67 = 3 ∧ evaluate PLAYER2 mixed67 = -3 ∧
      evaluate PLAYER1 mixed67 = -(evaluate PLAYER2 mixed67) := by
  refine ⟨by decide, by decide, by decide⟩

/-- **C3, amended**: exact antisymmetry of the evaluator *is* guaranteed:
`evaluate(P, B) + evaluate(opponent(P), B) = 0` for every player and board —
the two sides' independently filtered segment scans are exact mirrors (each
side's reward is the other side's penalty). -/
theorem C3_amended_antisymmetry (p : Player) (b : Board) :
    evaluate p.toInt b + evaluate (opponent p).toInt b = 0 := by
  rw [evaluate_antisym p b]
  ring

/- ## Claim C4: the coordinate geometry of the evaluated windows -/

/-- The slot value a coordinate window entry denotes: a real cell reads the
grid, a padding entry is the invalid flag `-1`. -/
def cellVal (g : Nat → Nat → Int) : Option (Nat × Nat) → Int
  | none => -1
  | some rc => g rc.1 rc.2

def rowCoords (cols r : Nat) : List (Option (Nat × Nat)) :=
  (List.range cols).map fun c => some (r, c)

def colCoords (rows c : Nat) : List (Option (Nat × Nat)) :=
  (List.range rows).map fun r => some (r, c)

def segCoords (rows cols : Nat) : List (List (Option (Nat × Nat))) :=
  let left_revolved := (List.range rows).map fun r =>
    List.replicate r (none : Option (Nat × Nat)) ++ rowCoords cols r ++
      List.replicate (rows - 1 - r) none
  let right_revolved := (List.range rows).map fun r =>
    List.replicate (rows - 1 - r) (none : Option (Nat × Nat)) ++ rowCoords cols r ++
      List.replicate r none
  ((List.range rows).flatMap fun r =>
    (List.range (cols - 3)).map fun c => ((rowCoords cols r).drop c).take 4) ++
  ((List.range cols).flatMap fun c =>
    (List.range (rows - 3)).map fun r => ((colCoords rows c).drop r).take 4) ++
  ((pyzip left_revolved).flatMap fun c =>
    (List.range (rows - 3)).map fun r => ((c.drop r).take 4)) ++
  ((pyzip right_revolved).flatMap fun c =>
    (List.range (rows - 3)).map fun r => ((c.drop r).take 4))

lemma rowCoords_map (g : Nat → Nat → Int) (cols r : Nat) :
    (rowCoords cols r).map (cellVal g) = (List.range cols).map (g r) := by
  unfold rowCoords
  rw [List.map_map]
  exact List.map_congr_left (fun c _ => rfl)

lemma colCoords_map (g : Nat → Nat → Int) (rows c : Nat) :
    (colCoords rows c).map (cellVal g) = (List.range rows).map (fun r => g r c) := by
  unfold colCoords
  rw [List.map_map]
  exact List.map_congr_left (fun r _ => rfl)

lemma pyzip_map {α β : Type} [Inhabited α] [Inhabited β] (f : α → β) (ls : List (List α)) :
    pyzip (ls.map (List.map f)) = (pyzip ls).map (List.map f) := by
  unfold pyzip
  have hlen : (ls.map (List.map f)).map List.length = ls.map List.length := by
    rw [List.map_map]
    exact List.map_congr_left (fun l _ => by simp)
  rw [hlen]
  cases hmin : (ls.map List.length).min? with
  | none => rfl
  | some n =>
    rw [List.map_map]
    apply List.map_congr_left
    intro i hi
    show (ls.map (List.map f)).map (fun l => l.getD i default) =
      (ls.map (fun l => l.getD i default)).map f
    rw [List.map_map, List.map_map]
    apply List.map_congr_left
    intro l hl
    have hn : n ≤ l.length := min?_le_all hmin _ (List.mem_map_of_mem _ hl)
    have hi2 : i < l.length := lt_of_lt_of_le (List.mem_range.mp hi) hn
    show (l.map f).getD i default = f (l.getD i default)
    rw [List.getD_eq_getElem?_getD, List.getD_eq_getElem?_getD, List.getElem?_map,
      List.getElem?_eq_getElem hi2]
    rfl

lemma segments_eq_coords (b : Board) :
    segments b = (segCoords b.rows b.cols).map (List.map (cellVal b.grid)) := by
  unfold segments segCoords
  simp only [List.map_append]
  have hrow : ∀ r, (rowCoords b.cols r).map (cellVal b.grid) = b.row r :=
    fun r => rowCoords_map b.grid b.cols r
  have hpad : ((List.range b.rows).map fun r =>
      List.replicate r (none : Option (Nat × Nat)) ++ rowCoords b.cols r ++
        List.replicate (b.rows - 1 - r) none).map (List.map (cellVal b.grid)) =
      (List.range b.rows).map fun r =>
        List.replicate r (-1 : Int) ++ b.row r ++ List.replicate (b.rows - 1 - r) (-1) := by
    rw [List.map_map]
    apply List.map_congr_left
    intro r _
    show ((List.replicate r (none : Option (Nat × Nat)) ++ rowCoords b.cols r ++
      List.replicate (b.rows - 1 - r) none).map (cellVal b.grid)) = _
    rw [List.map_append, List.map_append, List.map_replicate, List.map_replicate, hrow]
    rfl
  have hpad2 : ((List.range b.rows).map fun r =>
      List.replicate (b.rows - 1 - r) (none : Option (Nat × Nat)) ++ rowCoords b.cols r ++
        List.replicate r none).map (List.map (cellVal b.grid)) =
      (List.range b.rows).map fun r =>
        List.replicate (b.rows - 1 - r) (-1 : Int) ++ b.row r ++ List.replicate r (-1) := by
    rw [List.map_map]
    apply List.map_congr_left
    intro r _
    show ((List.replicate (b.rows - 1 - r) (none : Option (Nat × Nat)) ++ rowCoords b.cols r ++
      List.replicate r none).map (cellVal b.grid)) = _
    rw [List.map_append, List.map_append, List.map_replicate, List.map_replicate, hrow]
    rfl
  congr 1
  · congr 1
    · congr 1
      · -- horizontal windows
        rw [List.map_flatMap]
        apply List.flatMap_congr
        intro r _
        rw [List.map_map]
        apply List.map_congr_left
        intro c _
        show ((b.row r).drop c).take 4 =
          (((rowCoords b.cols r).drop c).take 4).map (cellVal b.grid)
        rw [List.map_take, List.map_drop, hrow]
      · -- vertical windows
        rw [List.map_flatMap]
        apply List.flatMap_congr
        intro c _
        rw [List.map_map]
        apply List.map_congr_left
        intro r _
        show ((b.col c).drop r).take 4 =
          (((colCoords b.rows c).drop r).take 4).map (cellVal b.grid)
        rw [List.map_take, List.map_drop, colCoords_map]
        rfl
    · -- first diagonal family
      rw [← hpad, pyzip_map, List.flatMap_map, List.map_flatMap]
      apply List.flatMap_congr
      intro c _
      rw [List.map_map]
      apply List.map_congr_left
      intro r _
      show ((c.map (cellVal b.grid)).drop r).take 4 = ((c.drop r).take 4).map (cellVal b.grid)
      rw [List.map_take, List.map_drop]
  · -- second diagonal family
    rw [← hpad2, pyzip_map, List.flatMap_map, List.map_flatMap]
    apply List.flatMap_congr
    intro c _
    rw [List.map_map]
    apply List.map_congr_left
    intro r _
    show ((c.map (cellVal b.grid)).drop r).take 4 = ((c.drop r).take 4).map (cellVal b.grid)
    rw [List.map_take, List.map_drop]

/-- Two coordinate windows share a real cell. -/
def sharesCell (w w0 : List (Option (Nat × Nat))) : Bool :=
  w.any fun x => x.isSome && decide (x ∈ w0)

/-- A window entry is a real cell of the 6×7 grid. -/
def inGrid67 : Option (Nat × Nat) → Bool
  | some rc => decide (rc.1 < 6) && decide (rc.2 < 7)
  | none => false

set_option maxRecDepth 40000 in
/-- Shape of the 69 valid windows of the 6×7 board. -/
lemma coords67_shape :
    ∀ w ∈ segCoords 6 7, (none : Option (Nat × Nat)) ∉ w →
      w.length = 4 ∧ ∀ x ∈ w, inGrid67 x = true := by decide

set_option maxRecDepth 40000 in
/-- Each valid window of the 6×7 board is disjoint from at most 58 of the
valid windows (it meets at least 11 of the 69, itself included). -/
lemma coords67_disjoint_bound :
    ∀ w0 ∈ segCoords 6 7, (none : Option (Nat × Nat)) ∉ w0 →
      ((segCoords 6 7).countP (fun w =>
        !(decide ((none : Option (Nat × Nat)) ∈ w)) && !(sharesCell w w0))) ≤ 58 := by
  decide

/- weight bounds -/

lemma weight_nonneg (k : Nat) : 0 ≤ weight k := by
  unfold weight weights
  rcases k with _ | _ | _ | _ | _ | k
  · decide
  · decide
  · decide
  · decide
  · decide
  · rw [List.getD_eq_default]
    simp

lemma weight_le_16 {k : Nat} (hk : k ≤ 3) : weight k ≤ 16 := by
  interval_cases k <;> decide

/- contribution bounds -/

lemma contrib_invalid {p a : Int} {s : List Int} (h : (-1 : Int) ∈ s) :
    contrib p a s = 0 := by
  unfold contrib
  rw [if_pos (Or.inl h), if_pos (Or.inl h)]
  ring

lemma contrib_ge_neg16 {p a : Int} {s : List Int} (hlen : s.length = 4)
    (hno4 : ¬ ((-1 : Int) ∉ s ∧ s.count a = 4)) : -16 ≤ contrib p a s := by
  by_cases hinv : (-1 : Int) ∈ s
  · rw [contrib_invalid hinv]
    norm_num
  · unfold contrib
    have hca : s.count a ≤ 3 := by
      have h4 : s.count a ≤ 4 := by
        have := List.count_le_length a s
        omega
      rcases Nat.lt_or_ge (s.count a) 4 with h | h
      · omega
      · exact absurd ⟨hinv, by omega⟩ hno4
    have h1 : (0 : Int) ≤ if (-1 : Int) ∈ s ∨ a ∈ s then 0 else weight (s.count p) := by
      split
      · exact le_refl 0
      · exact weight_nonneg _
    have h2 : (if (-1 : Int) ∈ s ∨ p ∈ s then 0 else weight (s.count a)) ≤ 16 := by
      split
      · norm_num
      · exact weight_le_16 hca
    linarith

lemma contrib_all_player {p a : Int} {s : List Int} (hlen : s.length = 4)
    (hinv : (-1 : Int) ∉ s) (hcount : s.count p = 4) (hpa : a ≠ p) :
    contrib p a s = 1000 := by
  have hall : ∀ x ∈ s, p = x := List.count_eq_length.mp (by omega)
  have hadv : a ∉ s := fun hmem => hpa (hall a hmem).symm
  have hp : p ∈ s := by
    have : 0 < s.count p := by omega
    exact List.count_pos_iff.mp this
  unfold contrib
  rw [if_neg (by tauto), if_pos (Or.inr hp), hcount]
  decide

/- sum bounds -/

lemma sum_const_le {α : Type} {f : α → Int} {m : Int} :
    ∀ (l : List α), (∀ s ∈ l, m ≤ f s) → m * (l.length : Int) ≤ (l.map f).sum := by
  intro l
  induction l with
  | nil => intro _; simp
  | cons x rest ih =>
    intro h
    rw [List.map_cons, List.sum_cons, List.length_cons]
    have h1 := h x (List.mem_cons_self x rest)
    have h2 := ih (fun s hs => h s (List.mem_cons_of_mem x hs))
    push_cast
    linarith

lemma sum_peel {α : Type} {l : List α} {f g : α → Int} {w : α} (hw : w ∈ l)
    (h : ∀ s ∈ l, g s ≤ f s) :
    (l.map g).sum + (f w - g w) ≤ (l.map f).sum := by
  obtain ⟨l1, l2, rfl⟩ := List.append_of_mem hw
  rw [List.map_append, List.map_append, List.map_cons, List.map_cons,
    List.sum_append, List.sum_append, List.sum_cons, List.sum_cons]
  have h1 : (l1.map g).sum ≤ (l1.map f).sum := by
    apply List.sum_le_sum
    intro s hs
    exact h s (List.mem_append_left _ hs)
  have h2 : (l2.map g).sum ≤ (l2.map f).sum := by
    apply List.sum_le_sum
    intro s hs
    exact h s (List.mem_append_right _ (List.mem_cons_of_mem w hs))
  linarith

lemma sum_lb_count {α : Type} (p1 p2 : α → Bool) :
    ∀ (l : List α),
      (l.map (fun w => if p1 w = true then 0 else if p2 w = true then 0 else (-16 : Int))).sum
        = -16 * (l.countP (fun w => !(p1 w) && !(p2 w)) : Int) := by
  intro l
  induction l with
  | nil => simp
  | cons x rest ih =>
    rw [List.map_cons, List.sum_cons, List.countP_cons, ih]
    cases h1 : p1 x <;> cases h2 : p2 x <;>
      simp [h1, h2] <;> push_cast <;> ring

/-- The general bound: a completed four for the player with no opposing four
scores at least `1000 − 3·16·(number of segments)` (each opposing window is
worth at most 16, so the true penalty bound is even `16·segments`). -/
lemma evaluate_lower_bound (p : Player) (b : Board)
    (hP : ∃ s ∈ segments b, (-1 : Int) ∉ s ∧ s.count p.toInt = 4)
    (hO : ¬ ∃ s ∈ segments b, (-1 : Int) ∉ s ∧ s.count (opponent p).toInt = 4) :
    1000 - 48 * ((segments b).length : Int) ≤ evaluate p.toInt b := by
  obtain ⟨w0, hw0mem, hw0inv, hw0cnt⟩ := hP
  rw [evaluate_eq_sum, pyAdv_toInt]
  have hlb : ∀ s ∈ segments b, (-16 : Int) ≤ contrib p.toInt (opponent p).toInt s :=
    fun s hs => contrib_ge_neg16 (segments_length s hs)
      (fun hbad => hO ⟨s, hs, hbad.1, hbad.2⟩)
  have hopp : (opponent p).toInt ≠ p.toInt := by cases p <;> decide
  have hw0c : contrib p.toInt (opponent p).toInt w0 = 1000 :=
    contrib_all_player (segments_length w0 hw0mem) hw0inv hw0cnt hopp
  have hconst : ((segments b).map (fun _ => (-16 : Int))).sum =
      -16 * ((segments b).length : Int) := by
    rw [List.map_const', List.sum_replicate]
    push_cast [nsmul_eq_mul]
    ring
  have hpeel := sum_peel (g := fun _ => (-16 : Int)) hw0mem hlb
  simp only [] at hpeel
  rw [hconst, hw0c] at hpeel
  have hL : (0 : Int) ≤ ((segments b).length : Int) := Int.natCast_nonneg _
  linarith

/-- Positivity on the game's 6×7 board: the four-in-a-row window meets enough
windows (every window it touches contributes nonnegatively) that the at most
58 disjoint windows, worth at least −16 each, cannot cancel its 1000. -/
lemma evaluate_pos_67 (p : Player) (b : Board) (hr : b.rows = 6) (hc : b.cols = 7)
    (hsv : SlotsValid b)
    (hP : ∃ s ∈ segments b, (-1 : Int) ∉ s ∧ s.count p.toInt = 4)
    (hO : ¬ ∃ s ∈ segments b, (-1 : Int) ∉ s ∧ s.count (opponent p).toInt = 4) :
    0 < evaluate p.toInt b := by
  have hcorr : segments b = (segCoords 6 7).map (List.map (cellVal b.grid)) := by
    have h := segments_eq_coords b
    rw [hr, hc] at h
    exact h
  obtain ⟨s, hsmem0, hsinv, hscnt⟩ := hP
  have hsmem := hsmem0
  rw [hcorr] at hsmem
  obtain ⟨w0, hw0K, hw0s⟩ := List.mem_map.mp hsmem
  have hw0none : (none : Option (Nat × Nat)) ∉ w0 := by
    intro hmem
    apply hsinv
    rw [← hw0s]
    exact List.mem_map.mpr ⟨none, hmem, rfl⟩
  obtain ⟨hw0len, hw0grid⟩ := coords67_shape w0 hw0K hw0none
  have hslen : s.length = 4 := segments_length s hsmem0
  have hall : ∀ x ∈ w0, cellVal b.grid x = p.toInt := by
    intro x hx
    have hally : ∀ y ∈ s, p.toInt = y := List.count_eq_length.mp (by omega)
    have hxmem : cellVal b.grid x ∈ s := by
      rw [← hw0s]
      exact List.mem_map_of_mem _ hx
    exact (hally _ hxmem).symm
  have hopp : (opponent p).toInt ≠ p.toInt := by cases p <;> decide
  -- pointwise lower bound on the contribution of each coordinate window
  have hwl : ∀ w ∈ segCoords 6 7,
      (if decide ((none : Option (Nat × Nat)) ∈ w) = true then 0
        else if sharesCell w w0 = true then 0 else (-16 : Int)) ≤
      contrib p.toInt (opponent p).toInt (w.map (cellVal b.grid)) := by
    intro w hwK
    by_cases hn : (none : Option (Nat × Nat)) ∈ w
    · rw [if_pos (by simp [hn])]
      have hm : (-1 : Int) ∈ w.map (cellVal b.grid) := List.mem_map.mpr ⟨none, hn, rfl⟩
      rw [contrib_invalid hm]
    · rw [if_neg (by simp [hn])]
      obtain ⟨hwlen, hwgrid⟩ := coords67_shape w hwK hn
      have hmap_inv : (-1 : Int) ∉ w.map (cellVal b.grid) := by
        intro hmem
        obtain ⟨x, hx, hxv⟩ := List.mem_map.mp hmem
        cases x with
        | none => exact hn hx
        | some rc =>
          have hg := hwgrid _ hx
          simp only [inGrid67, Bool.and_eq_true, decide_eq_true_eq] at hg
          have hval := hsv rc.1 (by rw [hr]; exact hg.1) rc.2 (by rw [hc]; exact hg.2)
          have hneg : b.grid rc.1 rc.2 = -1 := hxv
          rw [hneg] at hval
          rcases hval with h | h | h <;> simp [EMPTY_SLOT, PLAYER1, PLAYER2] at h
      by_cases hs2 : sharesCell w w0 = true
      · rw [if_pos hs2]
        obtain ⟨x, hxw, hxprop⟩ := List.any_eq_true.mp hs2
        rw [Bool.and_eq_true, decide_eq_true_eq] at hxprop
        have hpmem : p.toInt ∈ w.map (cellVal b.grid) :=
          List.mem_map.mpr ⟨x, hxw, hall x hxprop.2⟩
        unfold contrib
        rw [if_pos (Or.inr hpmem)]
        have h1 : (0 : Int) ≤ if (-1 : Int) ∈ w.map (cellVal b.grid) ∨
            (opponent p).toInt ∈ w.map (cellVal b.grid) then 0
            else weight ((w.map (cellVal b.grid)).count p.toInt) := by
          split
          · exact le_refl 0
          · exact weight_nonneg _
        linarith
      · rw [if_neg hs2]
        apply contrib_ge_neg16
        · rw [List.length_map]
          exact hwlen
        · rintro ⟨hinv2, hcnt2⟩
          exact hO ⟨w.map (cellVal b.grid),
            by rw [hcorr]; exact List.mem_map_of_mem _ hwK, hinv2, hcnt2⟩
  have heval : evaluate p.toInt b =
      ((segCoords 6 7).map (fun w =>
        contrib p.toInt (opponent p).toInt (w.map (cellVal b.grid)))).sum := by
    rw [evaluate_eq_sum, pyAdv_toInt, hcorr, List.map_map]
    rfl
  have hFw0 : contrib p.toInt (opponent p).toInt (w0.map (cellVal b.grid)) = 1000 := by
    rw [hw0s]
    exact contrib_all_player hslen hsinv hscnt hopp
  have hshare : sharesCell w0 w0 = true := by
    cases w0 with
    | nil => cases hw0len
    | cons x rest =>
      apply List.any_eq_true.mpr
      refine ⟨x, List.mem_cons_self x rest, ?_⟩
      rw [Bool.and_eq_true, decide_eq_true_eq]
      constructor
      · cases x with
        | none => exact absurd (List.mem_cons_self _ _) hw0none
        | some rc => rfl
      · exact List.mem_cons_self x rest
  have hlbw0 : (if decide ((none : Option (Nat × Nat)) ∈ w0) = true then 0
      else if sharesCell w0 w0 = true then 0 else (-16 : Int)) = 0 := by
    rw [if_neg (by simp [hw0none]), if_pos hshare]
  have hpeel := sum_peel (l := segCoords 6 7)
    (f := fun w => contrib p.toInt (opponent p).toInt (w.map (cellVal b.grid)))
    (g := fun w => if decide ((none : Option (Nat × Nat)) ∈ w) = true then 0
      else if sharesCell w w0 = true then 0 else (-16 : Int)) hw0K hwl
  have hsum_lb := sum_lb_count (fun w => decide ((none : Option (Nat × Nat)) ∈ w))
    (fun w => sharesCell w w0) (segCoords 6 7)
  simp only [] at hpeel hsum_lb
  rw [hsum_lb, hFw0, hlbw0] at hpeel
  have hD := coords67_disjoint_bound w0 hw0K hw0none
  have hDI : (((segCoords 6 7).countP (fun w =>
      !(decide ((none : Option (Nat × Nat)) ∈ w)) && !(sharesCell w w0))) : Int) ≤ 58 := by
    exact_mod_cast hD
  rw [heval]
  linarith

/-- **C4**: when `player` has a completed four-in-a-row window and the
opponent has none, the evaluation is dominated by the weight-4 term: it is at
least `1000 − 3·16·(number of segments)` on any board, and on the game's 6×7
board (with the data model's three slot values) it is strictly positive. -/
theorem C4_win_dominates (p : Player) (b : Board)
    (hP : ∃ s ∈ segments b, (-1 : Int) ∉ s ∧ s.count p.toInt = 4)
    (hO : ¬ ∃ s ∈ segments b, (-1 : Int) ∉ s ∧ s.count (opponent p).toInt = 4) :
    1000 - 48 * ((segments b).length : Int) ≤ evaluate p.toInt b ∧
      (b.rows = 6 → b.cols = 7 → SlotsValid b → 0 < evaluate p.toInt b) :=
  ⟨evaluate_lower_bound p b hP hO,
    fun hr hc hsv => evaluate_pos_67 p b hr hc hsv hP hO⟩

set_option maxRecDepth 40000 in
/-- Witness for C4 at a concrete winning 6×7 board. -/
theorem C4_win_dominates_witness :
    (∃ s ∈ segments win67, (-1 : Int) ∉ s ∧ s.count Player.P1.toInt = 4) ∧
      0 < evaluate Player.P1.toInt win67 :=
  ⟨by decide,
    (C4_win_dominates Player.P1 win67 (by decide) (by decide)).2 rfl rfl (by decide)⟩
